import Mathlib

/-!
NumberFormatter (`src/widgets/numformatter.cpp`).

A shallow embedding of the locale cache and of the formatter / parser of
`NumberFormatter`, followed by theorems about them.

* Strings (`wxString`) are `List Char`; `size_t` values are natural numbers and
  every `size_t` operation of the source is written out modulo `2 ^ 64`.
* Operations of `wxString` that throw on a position past the end (`insert`,
  `erase`) return `Option`.
* Static variables of the accessors are explicit state that every call takes and
  returns.
-/

namespace NumberFormatter

/-! ## `size_t` and the `wxString` operations used by the source -/

/-- Number of values of `size_t` (64-bit targets). -/
def SIZE_MOD : Nat := 2 ^ 64

/-- The constant `wxString::npos`, that is `(size_t)-1`. -/
def npos : Nat := SIZE_MOD - 1

namespace wxString

/-- `s.find(ch)`: position of the first occurrence of `ch`, `npos` when there is none. -/
def find (s : List Char) (ch : Char) : Nat :=
  if s.indexOf ch < s.length then s.indexOf ch else npos

/-- `s.find_first_of(set)`: position of the first character that belongs to `set`. -/
def find_first_of (s set : List Char) : Nat :=
  if s.findIdx (fun c => set.contains c) < s.length then s.findIdx (fun c => set.contains c)
  else npos

/-- `s.find_last_not_of(set)`: position of the last character that does not belong
to `set`, `npos` when every character belongs to it. -/
def find_last_not_of (s set : List Char) : Nat :=
  if s.reverse.findIdx (fun c => !set.contains c) < s.length then
    s.length - 1 - s.reverse.findIdx (fun c => !set.contains c)
  else npos

/-- `s.insert(pos, ch)`: `none` stands for the `std::out_of_range` raised when
`pos > s.length()`. -/
def insert (s : List Char) (pos : Nat) (ch : Char) : Option (List Char) :=
  if pos ≤ s.length then some (s.take pos ++ ch :: s.drop pos) else none

/-- `s.erase(pos)`: drops everything from `pos` on; `none` stands for the
`std::out_of_range` raised when `pos > s.length()`. -/
def erase (s : List Char) (pos : Nat) : Option (List Char) :=
  if pos ≤ s.length then some (s.take pos) else none

/-- `s.Replace(wxString(ch), replacement)` with the default `replaceAll = true`, for a
one-character pattern. -/
def Replace (ch : Char) (replacement : List Char) : List Char → List Char
  | [] => []
  | c :: cs =>
    if c = ch then replacement ++ Replace ch replacement cs
    else c :: Replace ch replacement cs

end wxString

/-! ## Locale identity and the two cached accessors -/

/-- What the two locale-identity queries of `NotInitializedOrHasChanged` return at
some moment: `wxGetLocale()` (an address, `0` for `NULL`) and
`setlocale(LC_ALL, NULL)` (a C string). -/
structure ProcessLocale where
  wxloc : Nat
  cloc : List Char
deriving DecidableEq, Repr

/-- The locale subsystem on the portable path:
`wxLocale::GetInfo(wxLOCALE_DECIMAL_POINT, wxLOCALE_CAT_NUMBER)` and
`wxLocale::GetInfo(wxLOCALE_THOUSANDS_SEP, wxLOCALE_CAT_NUMBER)`, each read from the
locale that is active when the query is made. -/
structure LocaleInfo where
  decimalPoint : ProcessLocale → List Char
  thousandsSep : ProcessLocale → List Char

/-- Fields of `class LocaleId`; `m_cloc = none` is the `NULL` pointer. -/
structure LocaleId where
  m_wxloc : Nat
  m_cloc : Option (List Char)
deriving DecidableEq, Repr

/-- The constructor `LocaleId()`: both fields `NULL`. -/
def LocaleId.init : LocaleId := ⟨0, none⟩

/-- `LocaleId::NotInitializedOrHasChanged`: the returned flag and the object after
the call. `strcmp(m_cloc, cloc) == 0` is equality of the two C strings; it is
evaluated only when `m_wxloc == wxloc`, and a `NULL` `m_cloc` at that point (which
no call leaves behind) is taken as a mismatch. -/
def LocaleId.NotInitializedOrHasChanged (self : LocaleId) (cur : ProcessLocale) :
    Bool × LocaleId :=
  if self.m_wxloc ≠ 0 ∨ self.m_cloc ≠ none then
    if self.m_wxloc = cur.wxloc ∧ self.m_cloc = some cur.cloc then (false, self)
    else (true, ⟨cur.wxloc, some cur.cloc⟩)
  else (true, ⟨cur.wxloc, some cur.cloc⟩)

/-- Outcome of one call of an accessor: the value returned, the static variables
after the call, and how many times the call queried `wxLocale::GetInfo`. -/
structure Call (σ α : Type) where
  ret : α
  statics : σ
  queries : Nat

/-- Static variables of `GetDecimalSeparator`. -/
structure DecimalStatics where
  s_decimalSeparator : Char
  s_localeUsedForInit : LocaleId
deriving DecidableEq, Repr

/-- Static initialisation: `s_decimalSeparator = 0`, a fresh `LocaleId`. -/
def DecimalStatics.init : DecimalStatics := ⟨Char.ofNat 0, LocaleId.init⟩

/-- `NumberFormatter::GetDecimalSeparator` (the `wxUSE_INTL` branch). -/
def GetDecimalSeparator (info : LocaleInfo) (st : DecimalStatics) (cur : ProcessLocale) :
    Call DecimalStatics Char :=
  match st.s_localeUsedForInit.NotInitializedOrHasChanged cur with
  | (true, id) =>
    match info.decimalPoint cur with
    | [] => ⟨'.', ⟨'.', id⟩, 1⟩
    | c :: _ => ⟨c, ⟨c, id⟩, 1⟩
  | (false, id) => ⟨st.s_decimalSeparator, ⟨st.s_decimalSeparator, id⟩, 0⟩

/-- Static variables of `GetThousandsSeparatorIfUsed`. -/
structure ThousandsStatics where
  s_thousandsSeparator : Char
  s_localeUsedForInit : LocaleId
deriving DecidableEq, Repr

/-- Static initialisation: `s_thousandsSeparator = 0`, a fresh `LocaleId`. -/
def ThousandsStatics.init : ThousandsStatics := ⟨Char.ofNat 0, LocaleId.init⟩

/-- `NumberFormatter::GetThousandsSeparatorIfUsed` (the `wxUSE_INTL` branch, portable
path, that is without `__WXMSW__`). The value is `none` when the function returns
`false` and `some c` when it returns `true` and stores `c` through `sep`. -/
def GetThousandsSeparatorIfUsed (info : LocaleInfo) (st : ThousandsStatics)
    (cur : ProcessLocale) : Call ThousandsStatics (Option Char) :=
  let finish (sep : Char) (id : LocaleId) (queries : Nat) : Call ThousandsStatics (Option Char) :=
    ⟨if sep = Char.ofNat 0 then none else some sep, ⟨sep, id⟩, queries⟩
  match st.s_localeUsedForInit.NotInitializedOrHasChanged cur with
  | (true, id) =>
    match info.thousandsSep cur with
    | c :: _ => finish c id 1
    | [] => finish st.s_thousandsSeparator id 1
  | (false, id) => finish st.s_thousandsSeparator id 0

/-- Successive calls of `GetDecimalSeparator`, one for each element of `locs`: the
i-th call is made while the locale `locs[i]` is active (any number of locale
switches may have happened since the previous call). The list of returned
characters. -/
def decimalCalls (info : LocaleInfo) : DecimalStatics → List ProcessLocale → List Char
  | _, [] => []
  | st, cur :: rest =>
    (GetDecimalSeparator info st cur).ret ::
      decimalCalls info (GetDecimalSeparator info st cur).statics rest

/-- Successive calls of `GetThousandsSeparatorIfUsed`, as in `decimalCalls`. -/
def thousandsCalls (info : LocaleInfo) :
    ThousandsStatics → List ProcessLocale → List (Option Char)
  | _, [] => []
  | st, cur :: rest =>
    (GetThousandsSeparatorIfUsed info st cur).ret ::
      thousandsCalls info (GetThousandsSeparatorIfUsed info st cur).statics rest

/-! ## Library routines the formatter and the parser call

`wxString::Format`, `wxString::ToLong`, `wxString::ToLongLong` and
`wxString::ToDouble` belong to the toolkit and to the C runtime; their code is not
part of `numformatter.cpp`. -/

/-- Modelled from the spec: `wxString::Format(wxT("%ld"), val)`, which is not part of
the sources. "Render the integer in base 10 with a sign if negative." -/
def Format_ld (val : Int) : List Char :=
  if val < 0 then '-' :: Nat.toDigits 10 val.natAbs else Nat.toDigits 10 val.natAbs

/-- A finite `double`: the number `(-1) ^ neg * mant * 2 ^ exp`. -/
structure FiniteDouble where
  neg : Bool
  mant : Nat
  exp : Int
deriving DecidableEq, Repr

/-- A `double` as `isnan` and `isinf` classify it. -/
inductive Double
  | nan
  | inf (neg : Bool)
  | finite (x : FiniteDouble)
deriving DecidableEq, Repr

/-- The fraction `num / den` that equals `|x| * 10 ^ k`. -/
def FiniteDouble.scaled (x : FiniteDouble) (k : Int) : Nat × Nat :=
  (x.mant * 2 ^ x.exp.toNat * 10 ^ k.toNat, 2 ^ (-x.exp).toNat * 10 ^ (-k).toNat)

/-- The fraction `num / den` rounded to the nearest integer, ties to even. -/
def roundHalfEven (num den : Nat) : Nat :=
  if 2 * (num % den) < den then num / den
  else if den < 2 * (num % den) then num / den + 1
  else if (num / den) % 2 = 0 then num / den
  else num / den + 1

/-- Left-pads a digit string with `0` up to `width` characters. -/
def zeroPad (width : Nat) (ds : List Char) : List Char :=
  List.replicate (width - ds.length) '0' ++ ds

/-- Removes the `0` characters that end a digit string. -/
def dropTrailingZeros (ds : List Char) : List Char :=
  (ds.reverse.dropWhile (fun c => c == '0')).reverse

/-- Modelled from the spec: `wxString::Format(wxT("%.<precision>f"), val)` for a
finite `val`, which is not part of the sources. "Fixed-point formatting with exactly
`precision` digits after the decimal point"; `dec` is the decimal point of the
numeric locale. -/
def Format_f (dec : Char) (precision : Nat) (x : FiniteDouble) : List Char :=
  let ds := zeroPad (precision + 1)
    (Nat.toDigits 10 (roundHalfEven (x.scaled precision).1 (x.scaled precision).2))
  (if x.neg then ['-'] else []) ++ ds.take (ds.length - precision) ++
    (if precision = 0 then [] else dec :: ds.drop (ds.length - precision))

/-- Least `k` (searched upwards from the second argument, with fuel) such that
`den ≤ num * 10 ^ k`. -/
def negExponent (num den : Nat) : Nat → Nat → Nat
  | 0, k => k
  | fuel + 1, k => if den ≤ num * 10 ^ k then k else negExponent num den fuel (k + 1)

/-- The decimal exponent `⌊log10 |x|⌋` of a non-zero finite `double`. -/
def FiniteDouble.decimalExponent (x : FiniteDouble) : Int :=
  if (x.scaled 0).2 ≤ (x.scaled 0).1 then
    ((Nat.toDigits 10 ((x.scaled 0).1 / (x.scaled 0).2)).length : Int) - 1
  else -(negExponent (x.scaled 0).1 (x.scaled 0).2 (x.scaled 0).2 0 : Int)

/-- Modelled from the spec: `wxString::Format(wxT("%g"), val)` for a finite `val`,
which is not part of the sources. "General formatting": six significant digits, in
fixed notation when the decimal exponent lies in `[-4, 6)` and in exponent notation
otherwise, trailing zeros (and a decimal point left bare) removed. -/
def Format_g (dec : Char) (x : FiniteDouble) : List Char :=
  let sign : List Char := if x.neg then ['-'] else []
  if x.mant = 0 then sign ++ ['0']
  else
    let e0 := x.decimalExponent
    let n0 := roundHalfEven (x.scaled (5 - e0)).1 (x.scaled (5 - e0)).2
    let n := if n0 = 10 ^ 6 then 10 ^ 5 else n0
    let e := if n0 = 10 ^ 6 then e0 + 1 else e0
    let ds := Nat.toDigits 10 n
    if -4 ≤ e ∧ e < 6 then
      let intPart := if 0 ≤ e then ds.take (e.toNat + 1) else ['0']
      let frac := dropTrailingZeros
        (if 0 ≤ e then ds.drop (e.toNat + 1) else List.replicate ((-e).toNat - 1) '0' ++ ds)
      sign ++ intPart ++ (if frac = [] then [] else dec :: frac)
    else
      let frac := dropTrailingZeros (ds.drop 1)
      sign ++ ds.take 1 ++ (if frac = [] then [] else dec :: frac) ++
        ['e', if e < 0 then '-' else '+'] ++ zeroPad 2 (Nat.toDigits 10 e.natAbs)

/-- The call `wxString::Format(format, val)` of `ToString(double, int, int)` for a
finite `val`: `format` is `%g` when `precision == -1` and `%.<precision>f` otherwise.
A negative precision other than `-1` gives no valid conversion specification
(`none`). -/
def Format (dec : Char) (precision : Int) (x : FiniteDouble) : Option (List Char) :=
  if precision = -1 then some (Format_g dec x)
  else if 0 ≤ precision then some (Format_f dec precision.toNat x)
  else none

/-- Smallest `long` (LP64). -/
def LONG_MIN : Int := -(2 ^ 63)

/-- Largest `long` (LP64). -/
def LONG_MAX : Int := 2 ^ 63 - 1

/-- Smallest `long long`. -/
def LLONG_MIN : Int := -(2 ^ 63)

/-- Largest `long long`. -/
def LLONG_MAX : Int := 2 ^ 63 - 1

/-- White space as `strtol` and `strtod` skip it: space, and the controls 9 to 13. -/
def isspace (c : Char) : Bool :=
  c == ' ' || (9 ≤ c.toNat && c.toNat ≤ 13)

/-- Value of a string of decimal digits. -/
def decimalValue (ds : List Char) : Nat :=
  ds.foldl (fun acc c => 10 * acc + (c.toNat - 48)) 0

/-- Splits an optional sign off the front of a string: whether it was `-`, and the
rest. -/
def takeSign : List Char → Bool × List Char
  | '-' :: rest => (true, rest)
  | '+' :: rest => (false, rest)
  | s => (false, s)

/-- Base-10 integer parsing in the manner of `strtol` followed by the checks of
`wxString::ToLong`: leading white space and one optional sign are accepted, at least
one digit is required, nothing may follow the digits, and the value must lie in
`[lo, hi]`. -/
def parseInteger (lo hi : Int) (s : List Char) : Option Int :=
  let body := takeSign (s.dropWhile isspace)
  if body.2 ≠ [] ∧ body.2.all Char.isDigit = true then
    let v : Int := if body.1 then -(decimalValue body.2 : Int) else (decimalValue body.2 : Int)
    if lo ≤ v ∧ v ≤ hi then some v else none
  else none

/-- Modelled from the spec: `wxString::ToLong(long*)`, which is not part of the
sources. "Parse the remaining string as a base-10 integer. Fails (returns false) on
any non-numeric residue, overflow, or empty input, per the underlying numeric-parse
contract." `none` is the `false` return, `some v` is `true` with `v` stored. -/
def ToLong (s : List Char) : Option Int := parseInteger LONG_MIN LONG_MAX s

/-- Modelled from the spec: `wxString::ToLongLong(wxLongLong_t*)`, which is not part
of the sources. "Same, for a wider integer type." -/
def ToLongLong (s : List Char) : Option Int := parseInteger LLONG_MIN LLONG_MAX s

/-- A decimal floating-point literal as read from a string: the number
`(-1) ^ neg * mant * 10 ^ exp10`. -/
structure DecimalLiteral where
  neg : Bool
  mant : Nat
  exp10 : Int
deriving DecidableEq, Repr

/-- The exponent part of a floating-point literal: empty, or `e` / `E`, an optional
sign and at least one digit. `none` when the text is anything else. -/
def parseExponent : List Char → Option Int
  | [] => some 0
  | c :: rest =>
    if (c = 'e' ∨ c = 'E') ∧ (takeSign rest).2 ≠ [] ∧ (takeSign rest).2.all Char.isDigit = true then
      some (if (takeSign rest).1 then -(decimalValue (takeSign rest).2 : Int)
        else (decimalValue (takeSign rest).2 : Int))
    else none

/-- The decimal form of `strtod`, for the text `body` that follows the white space
(its sign split off): digits with at most one decimal point `dec` (at least one digit
in all), an optional exponent, and nothing after it. -/
def parseDecimal (dec : Char) (body : Bool × List Char) : Option DecimalLiteral :=
  let intPart := body.2.takeWhile Char.isDigit
  let afterInt := body.2.dropWhile Char.isDigit
  let hasPoint : Bool := afterInt.head? == some dec
  let frac := if hasPoint then afterInt.tail.takeWhile Char.isDigit else []
  let afterFrac := if hasPoint then afterInt.tail.dropWhile Char.isDigit else afterInt
  if intPart ++ frac = [] then none
  else
    match parseExponent afterFrac with
    | none => none
    | some e => some ⟨body.1, decimalValue (intPart ++ frac), e - frac.length⟩

/-- Hexadecimal digits, in either letter case. -/
def isHexDigit (c : Char) : Bool :=
  c.isDigit || (97 ≤ c.toLower.toNat && c.toLower.toNat ≤ 102)

/-- Value of a string of hexadecimal digits. -/
def hexValue (ds : List Char) : Nat :=
  ds.foldl (fun acc c => 16 * acc + (if c.isDigit then c.toNat - 48 else c.toLower.toNat - 87)) 0

/-- The binary exponent part of a hexadecimal floating-point literal: empty, or `p` /
`P`, an optional sign and at least one decimal digit. `none` when the text is
anything else. -/
def parseBinaryExponent : List Char → Option Int
  | [] => some 0
  | c :: rest =>
    if (c = 'p' ∨ c = 'P') ∧ (takeSign rest).2 ≠ [] ∧ (takeSign rest).2.all Char.isDigit = true then
      some (if (takeSign rest).1 then -(decimalValue (takeSign rest).2 : Int)
        else (decimalValue (takeSign rest).2 : Int))
    else none

/-- The hexadecimal form of `strtod`, for the text after white space and sign: `0x` or
`0X`, hexadecimal digits with at most one decimal point `dec` (at least one digit in
all), an optional binary exponent, and nothing after it. The result `(mant, exp2)`
stands for `mant * 2 ^ exp2`. -/
def parseHexadecimal (dec : Char) : List Char → Option (Nat × Int)
  | c0 :: x :: rest =>
    if c0 = '0' ∧ (x = 'x' ∨ x = 'X') then
      let intPart := rest.takeWhile isHexDigit
      let afterInt := rest.dropWhile isHexDigit
      let hasPoint : Bool := afterInt.head? == some dec
      let frac := if hasPoint then afterInt.tail.takeWhile isHexDigit else []
      let afterFrac := if hasPoint then afterInt.tail.dropWhile isHexDigit else afterInt
      if intPart ++ frac = [] then none
      else
        match parseBinaryExponent afterFrac with
        | none => none
        | some e => some (hexValue (intPart ++ frac), e - 4 * frac.length)
    else none
  | _ => none

/-- The characters `strtod` allows between the parentheses of `nan(...)`. -/
def isNanChar (c : Char) : Bool :=
  c.isAlphanum || c == '_'

/-- The infinity and NaN forms of `strtod`, for the text `body` that follows the
white space (its sign split off): `inf` or `infinity`, and `nan` or `nan(...)` with
letters, digits and underscores between the parentheses, in any letter case and with
nothing after them. -/
def parseInfNan (body : Bool × List Char) : Option Double :=
  let t := body.2.map Char.toLower
  if t = "inf".toList ∨ t = "infinity".toList then some (Double.inf body.1)
  else if t = "nan".toList then some Double.nan
  else if t.take 4 = "nan(".toList ∧ t.drop (t.length - 1) = [')'] ∧
      ((t.drop 4).take (t.length - 5)).all isNanChar = true then some Double.nan
  else none

/-- Number of binary digits of `n` (the first argument is fuel). -/
def bitLength : Nat → Nat → Nat
  | 0, _ => 0
  | fuel + 1, n => if n = 0 then 0 else bitLength fuel (n / 2) + 1

/-- The binary exponent `⌊log2 (num / den)⌋` of a positive fraction. -/
def floorLog2 (num den : Nat) : Int :=
  let k : Int := (bitLength num num : Int) - (bitLength den den : Int)
  if den * 2 ^ k.toNat ≤ num * 2 ^ (-k).toNat then k else k - 1

/-- The `double` nearest to `(-1) ^ neg * num / den` (ties to even), as `strtod`
returns it, together with the `ERANGE` check of `wxString::ToDouble`: `none` when the
value rounds beyond the largest finite `double` (overflow), and when it is tiny (below
the smallest normal `double` `2 ^ -1022` even after rounding to 53 bits) and not
represented exactly (underflow). A finite result has `mant < 2 ^ 53` and
`-1074 ≤ exp`. -/
def roundToDouble (neg : Bool) (num den : Nat) : Option Double :=
  if num = 0 then some (Double.finite ⟨neg, 0, 0⟩)
  else
    let e2 := floorLog2 num den
    let q : Int := if e2 - 52 < -1074 then -1074 else e2 - 52
    let m := roundHalfEven (num * 2 ^ (-q).toNat) (den * 2 ^ q.toNat)
    let tiny : Bool := e2 < -1023 || (e2 == -1023 && roundHalfEven (num * 2 ^ 1075) den < 2 ^ 53)
    if 971 < q ∨ (q = 971 ∧ m = 2 ^ 53) then none
    else if tiny = true ∧ (num * 2 ^ (-q).toNat) % (den * 2 ^ q.toNat) ≠ 0 then none
    else if m = 2 ^ 53 then some (Double.finite ⟨neg, 2 ^ 52, q + 1⟩)
    else some (Double.finite ⟨neg, m, q⟩)

/-- Modelled from the spec: `wxString::ToDouble(double*)`, which is not part of the
sources. "Same, parsing as a floating-point value using the locale-aware decimal
separator expected by the underlying parse routine", and it "fails (returns false) on
any non-numeric residue, overflow, or empty input, per the underlying numeric-parse
contract". The underlying routine is `strtod`: leading white space and an optional
sign, then an infinity or a NaN (`parseInfNan`), a hexadecimal literal
(`parseHexadecimal`) or a decimal literal (`parseDecimal`) with the decimal point
`dec`; `ToDouble` returns `false` (`none`) unless the whole string was read, and on a
range error (`roundToDouble`). -/
def ToDouble (dec : Char) (s : List Char) : Option Double :=
  let body := takeSign (s.dropWhile isspace)
  match parseInfNan body with
  | some v => some v
  | none =>
    match parseHexadecimal dec body.2 with
    | some h => roundToDouble body.1 (h.1 * 2 ^ h.2.toNat) (2 ^ (-h.2).toNat)
    | none =>
      match parseDecimal dec body with
      | some l => roundToDouble l.neg (l.mant * 10 ^ l.exp10.toNat) (10 ^ (-l.exp10).toNat)
      | none => none

/-! ## Styles -/

/-- Modelled from the spec: the `Style` enumeration of `numformatter.h`, which is not
part of the sources. "A bitmask of independent formatting flags": one bit each. -/
def Style_None : Nat := 0x00

/-- Modelled from the spec: flag of `numformatter.h`, see `Style_None`. -/
def Style_WithThousandsSep : Nat := 0x01

/-- Modelled from the spec: flag of `numformatter.h`, see `Style_None`. -/
def Style_NoTrailingZeroes : Nat := 0x02

/-- Modelled from the spec: flag of `numformatter.h`, see `Style_None`. -/
def Style_OneTrailingZero : Nat := 0x04

/-- Modelled from the spec: flag of `numformatter.h`, see `Style_None`. -/
def Style_TwoTrailingZeroes : Nat := 0x08

/-- Modelled from the spec: flag of `numformatter.h`, see `Style_None`. -/
def Style_ThreeTrailingZeroes : Nat := 0x10

/-- The test `style & flag` of the source. -/
def hasFlag (style flag : Nat) : Bool := style &&& flag != 0

/-! ## Conversion to string and helpers -/

/-- What the two accessors return while one conversion runs: the character
`GetDecimalSeparator()` returns, and the outcome of `GetThousandsSeparatorIfUsed`
(`none` for `false`, `some c` for `true` with `c` stored). -/
structure Separators where
  decimalSep : Char
  thousandsSep : Option Char
deriving DecidableEq, Repr

/-- The constant `GROUP_LEN` of `AddThousandsSeparators`. -/
def GROUP_LEN : Nat := 3

/-- The loop `while ( pos > start + GROUP_LEN ) { pos -= GROUP_LEN; s.insert(pos,
thousandsSep); }` with `limit` for `start + GROUP_LEN`. The first argument bounds the
number of iterations; `none` is an `insert` past the end of the string (or the bound
reached with the loop condition still true). -/
def AddThousandsSeparators.loop (thousandsSep : Char) (limit : Nat) :
    Nat → Nat → List Char → Option (List Char)
  | 0, pos, s => if pos > limit then none else some s
  | fuel + 1, pos, s =>
    if pos > limit then
      (wxString.insert s ((pos + SIZE_MOD - GROUP_LEN) % SIZE_MOD) thousandsSep).bind fun s1 =>
        AddThousandsSeparators.loop thousandsSep limit fuel
          ((pos + SIZE_MOD - GROUP_LEN) % SIZE_MOD) s1
    else some s

/-- `NumberFormatter::AddThousandsSeparators`: the string `s` after the call. The
loop is given `s.length()` iterations, which it never exceeds because `pos` starts at
most at `s.length()` and goes down by `GROUP_LEN` each time. -/
def AddThousandsSeparators (L : Separators) (s : List Char) : Option (List Char) :=
  match L.thousandsSep with
  | none => some s
  | some thousandsSep =>
    let pos := if wxString.find s L.decimalSep = npos then s.length
      else wxString.find s L.decimalSep
    let start := wxString.find_first_of s "0123456789".toList
    AddThousandsSeparators.loop thousandsSep ((start + GROUP_LEN) % SIZE_MOD) s.length pos s

/-- `NumberFormatter::RemoveTrailingZeroes`: the string `s` after the call. Each
`wxCHECK_RET` returns with `s` untouched when its condition fails. -/
def RemoveTrailingZeroes (L : Separators) (s : List Char) (retain : Nat) :
    Option (List Char) :=
  let posDecSep := wxString.find s L.decimalSep
  if posDecSep = npos then some s
  else if posDecSep = 0 then some s
  else
    let posLastCharacterToKeep := wxString.find_last_not_of s ['0']
    let cut :=
      if posLastCharacterToKeep = posDecSep ∧ retain = 0 then
        (posLastCharacterToKeep + SIZE_MOD - 1) % SIZE_MOD
      else if (posLastCharacterToKeep + SIZE_MOD - posDecSep) % SIZE_MOD < retain then
        (retain + posDecSep) % SIZE_MOD
      else posLastCharacterToKeep
    wxString.erase s ((cut + 1) % SIZE_MOD)

/-- `NumberFormatter::PostProcessIntString`; the four `wxASSERT_MSG` have no effect
on the value. -/
def PostProcessIntString (L : Separators) (s : List Char) (style : Nat) :
    Option (List Char) :=
  if hasFlag style Style_WithThousandsSep then AddThousandsSeparators L s else some s

/-- `NumberFormatter::ToString(long val, int style)`. -/
def ToString_long (L : Separators) (val : Int) (style : Nat) : Option (List Char) :=
  PostProcessIntString L (Format_ld val) style

/-- `NumberFormatter::ToString(wxLongLong_t val, int style)`. -/
def ToString_longlong (L : Separators) (val : Int) (style : Nat) : Option (List Char) :=
  PostProcessIntString L (Format_ld val) style

/-- One step `if ( style & flag ) RemoveTrailingZeroes(s, retain);`. -/
def trimIf (L : Separators) (style flag retain : Nat) (s : List Char) : Option (List Char) :=
  if hasFlag style flag then RemoveTrailingZeroes L s retain else some s

/-- `NumberFormatter::ToString(double val, int precision, int style)`; `tr` is the
translation function `_()`. -/
def ToString_double (tr : List Char → List Char) (L : Separators) (val : Double)
    (precision : Int) (style : Nat) : Option (List Char) :=
  match val with
  | Double.nan => some (tr "NaN".toList)
  | Double.inf _ => some (tr "-Infinity".toList)
  | Double.finite x =>
    (Format L.decimalSep precision x).bind fun s0 =>
    (if hasFlag style Style_WithThousandsSep then AddThousandsSeparators L s0 else some s0).bind
      fun s1 =>
    if precision ≠ -1 then
      (trimIf L style Style_NoTrailingZeroes 0 s1).bind fun s2 =>
      (trimIf L style Style_OneTrailingZero 1 s2).bind fun s3 =>
      (trimIf L style Style_TwoTrailingZeroes 2 s3).bind fun s4 =>
      trimIf L style Style_ThreeTrailingZeroes 3 s4
    else some s1

/-! ## Conversion from strings -/

/-- `NumberFormatter::RemoveThousandsSeparators`: the string `s` after the call. -/
def RemoveThousandsSeparators (L : Separators) (s : List Char) : List Char :=
  match L.thousandsSep with
  | none => s
  | some thousandsSep => wxString.Replace thousandsSep [] s

/-- `NumberFormatter::FromString(wxString s, long *val)`: `none` for `false`, `some v`
for `true` with `*val = v`. -/
def FromString_long (L : Separators) (s : List Char) : Option Int :=
  ToLong (RemoveThousandsSeparators L s)

/-- `NumberFormatter::FromString(wxString s, wxLongLong_t *val)`. -/
def FromString_longlong (L : Separators) (s : List Char) : Option Int :=
  ToLongLong (RemoveThousandsSeparators L s)

/-- `NumberFormatter::FromString(wxString s, double *val)`. -/
def FromString_double (L : Separators) (s : List Char) : Option Double :=
  ToDouble L.decimalSep (RemoveThousandsSeparators L s)

/-! ## Reference definitions taken from the specification -/

/-- Specification of grouping: after a digit the separator `c` is written exactly
when the number of digits to its right is a positive multiple of 3. -/
def groupDigits (c : Char) : List Char → List Char
  | [] => []
  | d :: rest =>
    if rest ≠ [] ∧ rest.length % 3 = 0 then d :: c :: groupDigits c rest
    else d :: groupDigits c rest

/-- Specification of trimming, on the reversed fraction: a trailing `0` is removed
as long as more than `n` characters are left. -/
def trimReversed (n : Nat) : List Char → List Char
  | [] => []
  | c :: cs => if c = '0' ∧ n < (c :: cs).length then trimReversed n cs else c :: cs

/-- Specification of trimming: the fraction `F` with its trailing `0` digits removed
but never shortened below `n` digits. -/
def trimFraction (n : Nat) (F : List Char) : List Char :=
  (trimReversed n F.reverse).reverse

/-- Number of characters that follow the first decimal separator `dec` of `r`
(`0` when `r` has no decimal separator). -/
def fractionLength (dec : Char) (r : List Char) : Nat :=
  (r.drop (r.indexOf dec + 1)).length

/-- The cache of `GetDecimalSeparator` is coherent: it is not initialised, or its
character is the one resolved from the locale it records. -/
def DecimalStatics.Coherent (info : LocaleInfo) (st : DecimalStatics) : Prop :=
  st.s_localeUsedForInit = LocaleId.init ∨
    ∃ l : ProcessLocale, st.s_localeUsedForInit = ⟨l.wxloc, some l.cloc⟩ ∧
      st.s_decimalSeparator = (info.decimalPoint l).headD '.'

/-! ## Sample locales -/

/-- The "C" locale, no toolkit locale object. -/
def locale_C : ProcessLocale := ⟨0, "C".toList⟩

/-- An English locale, no toolkit locale object. -/
def locale_en_US : ProcessLocale := ⟨0, "en_US.UTF-8".toList⟩

/-- A German locale, no toolkit locale object. -/
def locale_de_DE : ProcessLocale := ⟨0, "de_DE.UTF-8".toList⟩

/-- Locale data of the three sample locales: decimal point `.` and no grouping in
"C", `.` and `,` in the English locale, `,` and `.` in the German one. -/
def sampleInfo : LocaleInfo where
  decimalPoint l := if l.cloc = "de_DE.UTF-8".toList then [','] else ['.']
  thousandsSep l :=
    if l.cloc = "de_DE.UTF-8".toList then ['.']
    else if l.cloc = "en_US.UTF-8".toList then [',']
    else []

/-! # Theorems -/

/-! ## The locale cache -/

/-- A call with no change of locale identity since the previous one returns `false`
and leaves the object as it is. -/
theorem LocaleId.NotInitializedOrHasChanged_again (self : LocaleId) (cur : ProcessLocale) :
    (self.NotInitializedOrHasChanged cur).2.NotInitializedOrHasChanged cur =
      (false, (self.NotInitializedOrHasChanged cur).2) := by
  unfold LocaleId.NotInitializedOrHasChanged
  split_ifs <;> simp_all

/-- After every call the object records the current pair. -/
theorem LocaleId.NotInitializedOrHasChanged_snd (self : LocaleId) (cur : ProcessLocale) :
    (self.NotInitializedOrHasChanged cur).2 = ⟨cur.wxloc, some cur.cloc⟩ := by
  unfold LocaleId.NotInitializedOrHasChanged
  split_ifs with h1 h2
  · obtain ⟨self_wx, self_c⟩ := self
    simp only at h2
    simp [h2.1, h2.2]
  · rfl
  · rfl

theorem DecimalStatics.init_coherent (info : LocaleInfo) :
    DecimalStatics.init.Coherent info := Or.inl rfl

/-- From a coherent cache, a call returns the separator resolved from the locale
active at the call and leaves a coherent cache. -/
theorem GetDecimalSeparator_coherent (info : LocaleInfo) (st : DecimalStatics)
    (cur : ProcessLocale) (h : st.Coherent info) :
    (GetDecimalSeparator info st cur).ret = (info.decimalPoint cur).headD '.' ∧
      (GetDecimalSeparator info st cur).statics.Coherent info := by
  have hsnd := LocaleId.NotInitializedOrHasChanged_snd st.s_localeUsedForInit cur
  unfold GetDecimalSeparator
  rcases hres : st.s_localeUsedForInit.NotInitializedOrHasChanged cur with ⟨b, id⟩
  rw [hres] at hsnd
  simp only at hsnd
  subst hsnd
  cases b with
  | true =>
    cases hs : info.decimalPoint cur with
    | nil => exact ⟨rfl, Or.inr ⟨cur, rfl, by simp [hs]⟩⟩
    | cons c cs => exact ⟨rfl, Or.inr ⟨cur, rfl, by simp [hs]⟩⟩
  | false =>
    have hcur : st.s_localeUsedForInit = ⟨cur.wxloc, some cur.cloc⟩ := by
      unfold LocaleId.NotInitializedOrHasChanged at hres
      split_ifs at hres with h1 h2
      · exact (Prod.mk.inj hres).2
      · simp at hres
      · simp at hres
    rcases h with h | ⟨l, hl, hsep⟩
    · rw [h] at hcur
      simp [LocaleId.init] at hcur
    · have hlc : l = cur := by
        rw [hl] at hcur
        obtain ⟨lw, lc⟩ := l
        obtain ⟨cw, cc⟩ := cur
        simp only [LocaleId.mk.injEq, Option.some.injEq] at hcur
        simp [hcur.1, hcur.2]
      subst hlc
      exact ⟨hsep, Or.inr ⟨l, rfl, hsep⟩⟩

/-- From a coherent cache, the calls return, one by one, the separators resolved
from the locales active at the calls. -/
theorem decimalCalls_coherent (info : LocaleInfo) (locs : List ProcessLocale) :
    ∀ st : DecimalStatics, st.Coherent info →
      decimalCalls info st locs = locs.map fun l => (info.decimalPoint l).headD '.' := by
  induction locs with
  | nil => intro st _; rfl
  | cons cur rest ih =>
    intro st h
    obtain ⟨h1, h2⟩ := GetDecimalSeparator_coherent info st cur h
    simp only [decimalCalls, List.map_cons, h1, ih _ h2]

/-- C6. Over any sequence of calls and locale changes in which every decimal-point
string has length at most 1 (and, being a C string, holds no null character), each
call of `GetDecimalSeparator`, starting from the uninitialised cache, returns the
separator of the locale active at that call: `.` when its decimal-point string is
empty, otherwise the single character of that string; and no call returns the null
character. -/
theorem GetDecimalSeparator_resolves (info : LocaleInfo) (locs : List ProcessLocale)
    (hlen : ∀ l ∈ locs, (info.decimalPoint l).length ≤ 1)
    (hnul : ∀ l ∈ locs, Char.ofNat 0 ∉ info.decimalPoint l) :
    List.Forall₂ (fun l c => (info.decimalPoint l = [] ∧ c = '.') ∨ info.decimalPoint l = [c])
      locs (decimalCalls info DecimalStatics.init locs) ∧
    Char.ofNat 0 ∉ decimalCalls info DecimalStatics.init locs := by
  rw [decimalCalls_coherent info locs _ (DecimalStatics.init_coherent info)]
  constructor
  · rw [List.forall₂_map_right_iff, List.forall₂_same]
    intro l hl
    have h1 := hlen l hl
    cases hs : info.decimalPoint l with
    | nil => exact Or.inl ⟨rfl, rfl⟩
    | cons c cs =>
      cases cs with
      | nil => exact Or.inr rfl
      | cons c2 cs2 =>
        rw [hs] at h1
        simp at h1
  · intro hmem
    obtain ⟨l, hl, heq⟩ := List.mem_map.mp hmem
    have h2 := hnul l hl
    cases hs : info.decimalPoint l with
    | nil =>
      rw [hs] at heq
      exact absurd heq (by decide)
    | cons c cs =>
      rw [hs] at heq h2
      simp only [List.headD_cons] at heq
      exact h2 (by simp [heq])

/-- Witness of C6 on the sample locales: the calls made under "C", German, German and
"C" return `.`, `,`, `,` and `.`. -/
theorem GetDecimalSeparator_resolves_witness :
    (∀ l ∈ [locale_C, locale_de_DE, locale_de_DE, locale_C],
        (sampleInfo.decimalPoint l).length ≤ 1) ∧
    (∀ l ∈ [locale_C, locale_de_DE, locale_de_DE, locale_C],
        Char.ofNat 0 ∉ sampleInfo.decimalPoint l) ∧
    (List.Forall₂
        (fun l c => (sampleInfo.decimalPoint l = [] ∧ c = '.') ∨ sampleInfo.decimalPoint l = [c])
        [locale_C, locale_de_DE, locale_de_DE, locale_C]
        (decimalCalls sampleInfo DecimalStatics.init
          [locale_C, locale_de_DE, locale_de_DE, locale_C]) ∧
      Char.ofNat 0 ∉ decimalCalls sampleInfo DecimalStatics.init
        [locale_C, locale_de_DE, locale_de_DE, locale_C]) :=
  ⟨by decide, by decide,
    GetDecimalSeparator_resolves sampleInfo [locale_C, locale_de_DE, locale_de_DE, locale_C]
      (by decide) (by decide)⟩

/-- C7. For every cache state and every locale, a second call of
`GetDecimalSeparator` made with the locale identity unchanged returns the character
the first call returned and queries the locale subsystem zero times; starting from
the uninitialised cache the two calls together query it exactly once. -/
theorem GetDecimalSeparator_idempotent (info : LocaleInfo) (st : DecimalStatics)
    (cur : ProcessLocale) :
    (GetDecimalSeparator info (GetDecimalSeparator info st cur).statics cur).ret =
        (GetDecimalSeparator info st cur).ret ∧
      (GetDecimalSeparator info (GetDecimalSeparator info st cur).statics cur).queries = 0 ∧
      (GetDecimalSeparator info DecimalStatics.init cur).queries +
        (GetDecimalSeparator info
          (GetDecimalSeparator info DecimalStatics.init cur).statics cur).queries = 1 := by
  have key : ∀ st0 : DecimalStatics,
      (GetDecimalSeparator info (GetDecimalSeparator info st0 cur).statics cur).ret =
          (GetDecimalSeparator info st0 cur).ret ∧
        (GetDecimalSeparator info (GetDecimalSeparator info st0 cur).statics cur).queries = 0 := by
    intro st0
    have hagain := LocaleId.NotInitializedOrHasChanged_again st0.s_localeUsedForInit cur
    unfold GetDecimalSeparator
    rcases hres : st0.s_localeUsedForInit.NotInitializedOrHasChanged cur with ⟨b, id⟩
    rw [hres] at hagain
    simp only at hagain
    cases b with
    | true =>
      cases hs : info.decimalPoint cur with
      | nil => simp [hagain]
      | cons c cs => simp [hagain]
    | false => simp [hagain]
  refine ⟨(key st).1, (key st).2, ?_⟩
  rw [(key DecimalStatics.init).2]
  unfold GetDecimalSeparator
  cases hs : info.decimalPoint cur <;>
    simp [DecimalStatics.init, LocaleId.init, LocaleId.NotInitializedOrHasChanged]

/-- C5 (the code does not do this). The first call is made under the English locale,
whose grouping separator is `,`; the second one under the "C" locale, whose grouping
string is empty. The second call still returns `true` with the `,` cached by the
first: the branch for an empty string leaves `s_thousandsSeparator` as it is. -/
theorem GetThousandsSeparatorIfUsed_stale :
    sampleInfo.thousandsSep locale_C = [] ∧
      thousandsCalls sampleInfo ThousandsStatics.init [locale_en_US, locale_C] =
        [some ',', some ','] := by
  decide

/-! ## Not-a-number and infinities -/

/-- C9. For every precision (the sentinel `-1` included) and every style,
`ToString(NaN, precision, style)` is exactly the translated "NaN" label: nothing is
grouped or trimmed. -/
theorem ToString_double_nan (tr : List Char → List Char) (L : Separators) (precision : Int)
    (style : Nat) :
    ToString_double tr L Double.nan precision style = some (tr "NaN".toList) := rfl

/-- C10. For every precision and every style, `ToString` gives the same string for
`+infinity` and for `-infinity`: the translated "-Infinity" label. -/
theorem ToString_double_inf (tr : List Char → List Char) (L : Separators) (precision : Int)
    (style : Nat) :
    ToString_double tr L (Double.inf false) precision style = some (tr "-Infinity".toList) ∧
      ToString_double tr L (Double.inf true) precision style =
        some (tr "-Infinity".toList) :=
  ⟨rfl, rfl⟩

/-! ## Lemmas on the string operations -/

theorem SIZE_MOD_eq : SIZE_MOD = 18446744073709551616 := by decide

theorem npos_eq : npos = 18446744073709551615 := by decide

namespace wxString

theorem indexOf_append_cons (d : Char) (T : List Char) :
    ∀ I : List Char, d ∉ I → (I ++ d :: T).indexOf d = I.length := by
  intro I
  induction I with
  | nil => intro _; simp
  | cons a I ih =>
    intro h
    have ha : a ≠ d := fun e => h (by simp [e])
    have hI : d ∉ I := fun e => h (by simp [e])
    simp [List.indexOf_cons_ne _ ha, ih hI]

theorem find_append_cons (d : Char) (I T : List Char) (h : d ∉ I) :
    find (I ++ d :: T) d = I.length := by
  unfold find
  rw [indexOf_append_cons d T I h]
  simp

theorem find_of_not_mem (d : Char) (s : List Char) (h : d ∉ s) : find s d = npos := by
  unfold find
  rw [List.indexOf_eq_length.mpr h]
  simp

theorem find_last_not_of_zero (W : List Char) (x : Char) (z : Nat) (hx : x ≠ '0') :
    find_last_not_of (W ++ x :: List.replicate z '0') ['0'] = W.length := by
  unfold find_last_not_of
  have hrev : (W ++ x :: List.replicate z '0').reverse = List.replicate z '0' ++ x :: W.reverse := by
    simp
  have hidx : (List.replicate z '0' ++ x :: W.reverse).findIdx (fun c => !(List.contains ['0'] c)) = z := by
    rw [List.findIdx_append]
    have h1 : (List.replicate z '0').findIdx (fun c => !(List.contains ['0'] c))
        = (List.replicate z '0').length := by
      apply List.findIdx_eq_length_of_false
      intro c hc
      rw [List.eq_of_mem_replicate hc]
      decide
    rw [h1]
    simp [List.findIdx_cons, hx]
  rw [hrev, hidx]
  simp
  omega

end wxString

/-! ## Decimal digits -/

theorem digitChar_mem (n : Nat) (h : n < 10) : Nat.digitChar n ∈ "0123456789".toList := by
  interval_cases n <;> decide

theorem digitChar_value (n : Nat) (h : n < 10) : (Nat.digitChar n).toNat - 48 = n := by
  interval_cases n <;> decide

theorem isDigit_of_mem (c : Char) (h : c ∈ "0123456789".toList) : c.isDigit = true := by
  revert c
  decide

theorem toDigitsCore_spec :
    ∀ (fuel n : Nat) (ds : List Char), n < fuel →
      ∃ l : List Char, Nat.toDigitsCore 10 fuel n ds = l ++ ds ∧ l ≠ [] ∧
        (∀ c ∈ l, c ∈ "0123456789".toList) ∧
        (∀ a : Nat, l.foldl (fun acc c => 10 * acc + (c.toNat - 48)) a = a * 10 ^ l.length + n) ∧
        l.length ≤ fuel := by
  intro fuel
  induction fuel with
  | zero => intro n ds h; omega
  | succ fuel ih =>
    intro n ds h
    have hmod : n % 10 < 10 := Nat.mod_lt _ (by decide)
    by_cases h0 : n / 10 = 0
    · refine ⟨[Nat.digitChar (n % 10)], ?_, by simp, ?_, ?_, by simp⟩
      · simp [Nat.toDigitsCore, h0]
      · intro c hc
        rw [List.mem_singleton.mp hc]
        exact digitChar_mem _ hmod
      · intro a
        simp only [List.foldl_cons, List.foldl_nil, List.length_singleton, pow_one]
        rw [digitChar_value _ hmod]
        omega
    · have hlt : n / 10 < fuel := by omega
      obtain ⟨l, hl, hne, hdig, hval, hlen⟩ := ih (n / 10) (Nat.digitChar (n % 10) :: ds) hlt
      refine ⟨l ++ [Nat.digitChar (n % 10)], ?_, by simp, ?_, ?_, ?_⟩
      · simp [Nat.toDigitsCore, h0, hl]
      · intro c hc
        rcases List.mem_append.mp hc with hc | hc
        · exact hdig c hc
        · rw [List.mem_singleton.mp hc]
          exact digitChar_mem _ hmod
      · intro a
        rw [List.foldl_append, hval a]
        simp only [List.foldl_cons, List.foldl_nil, List.length_append, List.length_singleton]
        rw [digitChar_value _ hmod, pow_succ]
        have := Nat.div_add_mod n 10
        nlinarith [this]
      · simp only [List.length_append, List.length_singleton]
        omega

theorem toDigits_ne_nil (n : Nat) : Nat.toDigits 10 n ≠ [] := by
  obtain ⟨l, hl, hne, -⟩ := toDigitsCore_spec (n + 1) n [] (Nat.lt_succ_self n)
  unfold Nat.toDigits
  rw [hl]
  simpa using hne

theorem toDigits_mem (n : Nat) : ∀ c ∈ Nat.toDigits 10 n, c ∈ "0123456789".toList := by
  obtain ⟨l, hl, -, hdig, -⟩ := toDigitsCore_spec (n + 1) n [] (Nat.lt_succ_self n)
  unfold Nat.toDigits
  rw [hl]
  simpa using hdig

theorem decimalValue_toDigits (n : Nat) : decimalValue (Nat.toDigits 10 n) = n := by
  obtain ⟨l, hl, -, -, hval, -⟩ := toDigitsCore_spec (n + 1) n [] (Nat.lt_succ_self n)
  unfold decimalValue Nat.toDigits
  rw [hl, List.append_nil, hval 0]
  simp

theorem toDigits_length_le (n : Nat) : (Nat.toDigits 10 n).length ≤ n + 1 := by
  obtain ⟨l, hl, -, -, -, hlen⟩ := toDigitsCore_spec (n + 1) n [] (Nat.lt_succ_self n)
  unfold Nat.toDigits
  rw [hl]
  simpa using hlen

/-! ## Trailing zeroes -/

theorem take_sep (I R : List Char) (d : Char) (k : Nat) :
    (I ++ d :: R).take (I.length + k + 1) = I ++ d :: R.take k := by
  rw [Nat.add_assoc, List.take_append, List.take_succ_cons]

theorem find_last_not_of_fraction (I G : List Char) (d : Char) (z : Nat) (hd : d ≠ '0')
    (hG : G.getLast? ≠ some '0') :
    wxString.find_last_not_of (I ++ d :: (G ++ List.replicate z '0')) ['0'] =
      I.length + G.length := by
  rcases List.eq_nil_or_concat G with hnil | ⟨G', x, hx⟩
  · subst hnil
    simpa using wxString.find_last_not_of_zero I d z hd
  · subst hx
    have hx0 : x ≠ '0' := by
      intro e
      apply hG
      simp [e]
    have := wxString.find_last_not_of_zero (I ++ d :: G') x z hx0
    simp only [List.concat_eq_append, List.append_assoc, List.cons_append, List.nil_append,
      List.length_append, List.length_cons, List.length_nil] at this ⊢
    rw [this]

theorem RemoveTrailingZeroes_fraction (L : Separators) (I G : List Char) (z N : Nat)
    (hd : L.decimalSep ≠ '0') (hI : I ≠ []) (hId : L.decimalSep ∉ I)
    (hG : G.getLast? ≠ some '0') (hN : N ≤ G.length + z)
    (hlen : (I ++ L.decimalSep :: (G ++ List.replicate z '0')).length < SIZE_MOD) :
    RemoveTrailingZeroes L (I ++ L.decimalSep :: (G ++ List.replicate z '0')) N =
      some (if N = 0 ∧ G = [] then I
        else I ++ L.decimalSep :: (G ++ List.replicate (N - G.length) '0')) := by
  have hfind := wxString.find_append_cons L.decimalSep I (G ++ List.replicate z '0') hId
  have hlast := find_last_not_of_fraction I G L.decimalSep z hd hG
  have hIpos : 0 < I.length := List.length_pos.mpr hI
  have hl : (I ++ L.decimalSep :: (G ++ List.replicate z '0')).length =
      I.length + G.length + z + 1 := by
    simp only [List.length_append, List.length_cons, List.length_replicate]
    omega
  rw [hl, SIZE_MOD_eq] at hlen
  unfold RemoveTrailingZeroes
  simp only [hfind, hlast, npos_eq, SIZE_MOD_eq]
  rw [if_neg (by omega), if_neg (by omega)]
  by_cases h1 : N = 0 ∧ G = []
  · obtain ⟨hN0, hG0⟩ := h1
    subst hN0 hG0
    simp only [List.length_nil, Nat.add_zero, and_self, if_true]
    have e : (I.length + 18446744073709551616 - 1) % 18446744073709551616 + 1 = I.length := by
      omega
    rw [Nat.mod_eq_of_lt (by omega : (I.length + 18446744073709551616 - 1) % 18446744073709551616 + 1 < 18446744073709551616), e]
    unfold wxString.erase
    rw [if_pos (by simp)]
    simp
  · have hc1 : ¬ (I.length + G.length = I.length ∧ N = 0) := by
      rintro ⟨ha, hb⟩
      exact h1 ⟨hb, List.length_eq_zero.mp (by omega)⟩
    rw [if_neg hc1, if_neg h1]
    have hgap : (I.length + G.length + 18446744073709551616 - I.length) % 18446744073709551616
        = G.length := by omega
    rw [hgap]
    by_cases h2 : G.length < N
    · rw [if_pos h2]
      have e : ((N + I.length) % 18446744073709551616 + 1) % 18446744073709551616
          = I.length + N + 1 := by omega
      rw [e]
      unfold wxString.erase
      rw [if_pos (by rw [hl]; omega), take_sep]
      congr 2
      rw [List.take_append_eq_append_take, List.take_of_length_le (by omega),
        List.take_replicate, Nat.min_eq_left (by omega)]
    · rw [if_neg h2]
      have e : (I.length + G.length + 1) % 18446744073709551616 = I.length + G.length + 1 := by
        omega
      rw [e]
      unfold wxString.erase
      rw [if_pos (by rw [hl]; omega), take_sep]
      congr 2
      rw [List.take_append_eq_append_take, List.take_of_length_le (by omega)]
      simp [Nat.sub_eq_zero_of_le (Nat.le_of_not_lt h2)]

theorem exists_trailing_zeros (F : List Char) :
    ∃ (G : List Char) (z : Nat), F = G ++ List.replicate z '0' ∧ G.getLast? ≠ some '0' := by
  induction F using List.reverseRecOn with
  | nil => exact ⟨[], 0, rfl, by simp⟩
  | append_singleton F x ih =>
    by_cases hx : x = '0'
    · obtain ⟨G, z, hF, hG⟩ := ih
      refine ⟨G, z + 1, ?_, hG⟩
      rw [hF, hx, List.replicate_succ', List.append_assoc]
    · refine ⟨F ++ [x], 0, by simp, ?_⟩
      simpa using hx

/-- The specification of trimming on a block of zeros in front of a string that does
not start with `0`. -/
theorem trimReversed_replicate (N : Nat) (R : List Char) (hR : R.head? ≠ some '0') :
    ∀ z : Nat, trimReversed N (List.replicate z '0' ++ R) =
      List.replicate (min z (N - R.length)) '0' ++ R := by
  intro z
  induction z with
  | zero =>
    cases R with
    | nil => simp [trimReversed]
    | cons c cs =>
      have hc : c ≠ '0' := by simpa using hR
      simp [trimReversed, hc]
  | succ z ih =>
    rw [List.replicate_succ, List.cons_append, trimReversed]
    by_cases h : N < ('0' :: (List.replicate z '0' ++ R)).length
    · rw [if_pos ⟨rfl, h⟩, ih]
      simp only [List.length_cons, List.length_append, List.length_replicate] at h
      congr 2
      omega
    · rw [if_neg (fun hh => h hh.2)]
      simp only [List.length_cons, List.length_append, List.length_replicate] at h
      rw [Nat.min_eq_left (by omega), List.replicate_succ, List.cons_append]

theorem trimFraction_eq (N : Nat) (G : List Char) (z : Nat) (hG : G.getLast? ≠ some '0') :
    trimFraction N (G ++ List.replicate z '0') =
      G ++ List.replicate (min z (N - G.length)) '0' := by
  unfold trimFraction
  rw [List.reverse_append, List.reverse_replicate,
    trimReversed_replicate N G.reverse (by simpa using hG) z]
  simp

theorem all_zero_iff (G : List Char) (z : Nat) (hG : G.getLast? ≠ some '0') :
    (∀ c ∈ G ++ List.replicate z '0', c = '0') ↔ G = [] := by
  constructor
  · intro h
    by_contra hne
    apply hG
    rw [List.getLast?_eq_getLast _ hne]
    congr 1
    exact h _ (List.mem_append.mpr (Or.inl (List.getLast_mem hne)))
  · intro h c hc
    subst h
    exact List.eq_of_mem_replicate (by simpa using hc)

/-- `RemoveTrailingZeroes` on a string `I + d + F` agrees with the specification of
trimming. -/
theorem RemoveTrailingZeroes_eq (L : Separators) (I F : List Char) (N : Nat)
    (hd : L.decimalSep ≠ '0') (hI : I ≠ []) (hId : L.decimalSep ∉ I) (hN : N ≤ F.length)
    (hlen : (I ++ L.decimalSep :: F).length < SIZE_MOD) :
    RemoveTrailingZeroes L (I ++ L.decimalSep :: F) N =
      some (if N = 0 ∧ ∀ c ∈ F, c = '0' then I else I ++ L.decimalSep :: trimFraction N F) := by
  obtain ⟨G, z, hF, hG⟩ := exists_trailing_zeros F
  subst hF
  have hN' : N ≤ G.length + z := by simpa using hN
  rw [RemoveTrailingZeroes_fraction L I G z N hd hI hId hG hN' hlen, trimFraction_eq N G z hG,
    Nat.min_eq_right (by omega)]
  simp only [all_zero_iff G z hG]

/-- C3. For every string `I + d + F`, where `d` is the decimal separator and is not
`0`, `I` is not empty and does not contain `d` (`F` may be any string, of digits in
particular), and for every `N ≤ length F`, `RemoveTrailingZeroes(s, N)` leaves
`I + d + F'`, where `F'` is `F` with its trailing `0` digits removed but never
shortened below `N` digits (`trimFraction`); except that for `N = 0` and `F` without a
non-zero digit it leaves `I` alone. The string fits a `size_t` length. -/
theorem RemoveTrailingZeroes_spec (L : Separators) (I F : List Char) (N : Nat)
    (hd : L.decimalSep ≠ '0') (hI : I ≠ []) (hId : L.decimalSep ∉ I) (hN : N ≤ F.length)
    (hlen : (I ++ L.decimalSep :: F).length < SIZE_MOD) :
    RemoveTrailingZeroes L (I ++ L.decimalSep :: F) N =
      some (if N = 0 ∧ ∀ c ∈ F, c = '0' then I else I ++ L.decimalSep :: trimFraction N F) :=
  RemoveTrailingZeroes_eq L I F N hd hI hId hN hlen

/-- Witness of C3: `"1.000"` with `retain = 1` gives `"1.0"`. -/
theorem RemoveTrailingZeroes_spec_witness :
    (('.' : Char) ≠ '0' ∧ "1".toList ≠ [] ∧ '.' ∉ "1".toList ∧ 1 ≤ "000".toList.length ∧
      ("1".toList ++ '.' :: "000".toList).length < SIZE_MOD) ∧
    RemoveTrailingZeroes ⟨'.', none⟩ ("1".toList ++ '.' :: "000".toList) 1 = some "1.0".toList :=
  ⟨by decide,
    RemoveTrailingZeroes_spec ⟨'.', none⟩ "1".toList "000".toList 1 (by decide) (by decide)
      (by decide) (by decide) (by decide)⟩

/-! ## Retained digits -/

theorem trimFraction_length (N : Nat) (F : List Char) (hN : N ≤ F.length) :
    N ≤ (trimFraction N F).length := by
  obtain ⟨G, z, hF, hG⟩ := exists_trailing_zeros F
  subst hF
  rw [trimFraction_eq N G z hG]
  simp only [List.length_append, List.length_replicate] at hN ⊢
  omega

theorem trimFraction_take (N : Nat) (F : List Char) :
    trimFraction N F = F.take (trimFraction N F).length := by
  obtain ⟨G, z, hF, hG⟩ := exists_trailing_zeros F
  subst hF
  rw [trimFraction_eq N G z hG]
  simp only [List.length_append, List.length_replicate]
  rw [List.take_append, List.take_replicate, Nat.min_eq_left (Nat.min_le_left _ _)]

theorem fractionLength_append_cons (d : Char) (I F : List Char) (h : d ∉ I) :
    fractionLength d (I ++ d :: F) = F.length := by
  unfold fractionLength
  rw [wxString.indexOf_append_cons d F I h, List.drop_append, List.drop_succ_cons, List.drop_zero]

theorem zeroPad_length (w : Nat) (ds : List Char) :
    (zeroPad w ds).length = w - ds.length + ds.length := by
  unfold zeroPad
  simp only [List.length_append, List.length_replicate]

theorem zeroPad_mem (w : Nat) (ds : List Char) (h : ∀ c ∈ ds, c ∈ "0123456789".toList) :
    ∀ c ∈ zeroPad w ds, c ∈ "0123456789".toList := by
  intro c hc
  unfold zeroPad at hc
  rcases List.mem_append.mp hc with hc | hc
  · rw [List.eq_of_mem_replicate hc]
    decide
  · exact h c hc

theorem roundHalfEven_le (num den : Nat) : roundHalfEven num den ≤ num / den + 1 := by
  unfold roundHalfEven
  split_ifs <;> omega

/-- Shape of a fixed-point rendering with at least one digit after the point. -/
theorem Format_f_shape (dec : Char) (p : Nat) (x : FiniteDouble) (hp : 0 < p) :
    ∃ I F : List Char, Format_f dec p x = I ++ dec :: F ∧ I ≠ [] ∧
      (∀ c ∈ I, c = '-' ∨ c ∈ "0123456789".toList) ∧ F.length = p := by
  have hds := zeroPad_length (p + 1)
    (Nat.toDigits 10 (roundHalfEven (x.scaled p).1 (x.scaled p).2))
  have hmem := zeroPad_mem (p + 1)
    (Nat.toDigits 10 (roundHalfEven (x.scaled p).1 (x.scaled p).2)) (toDigits_mem _)
  unfold Format_f
  simp only
  generalize zeroPad (p + 1)
    (Nat.toDigits 10 (roundHalfEven (x.scaled p).1 (x.scaled p).2)) = ds at hds hmem
  rw [if_neg (show ¬ p = 0 by omega)]
  refine ⟨(if x.neg then ['-'] else []) ++ ds.take (ds.length - p), ds.drop (ds.length - p),
    by simp, ?_, ?_, ?_⟩
  · intro h
    have h2 := (List.append_eq_nil.mp h).2
    have h3 : (ds.take (ds.length - p)).length = 0 := by rw [h2]; rfl
    rw [List.length_take] at h3
    omega
  · intro c hc
    rcases List.mem_append.mp hc with hc | hc
    · left
      split_ifs at hc <;> simp_all
    · right
      exact hmem c (List.mem_of_mem_take hc)
  · rw [List.length_drop]
    omega

/-- Monotonicity used to bound the magnitude of a `double`. -/
theorem mant_pow_lt (m t k : Nat) (hm : m < 2 ^ 53) (ht : t ≤ k) :
    m * 2 ^ t < 2 ^ 53 * 2 ^ k :=
  calc m * 2 ^ t ≤ m * 2 ^ k := Nat.mul_le_mul_left _ (Nat.pow_le_pow_right Nat.two_pos ht)
    _ < 2 ^ 53 * 2 ^ k := Nat.mul_lt_mul_of_pos_right hm (Nat.two_pow_pos k)

/-- Every finite `double` is below `2 ^ 1024`, hence below `10 ^ 309`. -/
theorem double_range_bound : 2 ^ 53 * 2 ^ 971 ≤ 10 ^ 309 := by
  have e1 : (2 : Nat) ^ 53 * 2 ^ 971 = (2 ^ 64) ^ 16 := by rw [← pow_add, ← pow_mul]
  have e2 : (2 : Nat) ^ 64 ≤ 185 * 10 ^ 17 := by norm_num
  have e3 : (185 : Nat) ^ 16 ≤ 10 ^ 37 := by norm_num
  calc (2 : Nat) ^ 53 * 2 ^ 971 = (2 ^ 64) ^ 16 := e1
    _ ≤ (185 * 10 ^ 17) ^ 16 := Nat.pow_le_pow_left e2 16
    _ = 185 ^ 16 * 10 ^ (17 * 16) := by rw [mul_pow, ← pow_mul]
    _ ≤ 10 ^ 37 * 10 ^ (17 * 16) := Nat.mul_le_mul_right _ e3
    _ = 10 ^ 309 := by rw [← pow_add]

/-- A fixed-point rendering of a `double` with precision below `2 ^ 31` fits a
`size_t` length. -/
theorem Format_f_length (dec : Char) (p : Nat) (x : FiniteDouble) (hm : x.mant < 2 ^ 53)
    (he : x.exp ≤ 971) : (Format_f dec p x).length ≤ p + 312 := by
  have hR : roundHalfEven (x.scaled p).1 (x.scaled p).2 < 10 ^ (310 + p) := by
    have h1 := roundHalfEven_le (x.scaled p).1 (x.scaled p).2
    have h2 : (x.scaled p).1 / (x.scaled p).2 ≤ (x.scaled p).1 := Nat.div_le_self _ _
    have h3 : (x.scaled p).1 < 10 ^ 309 * 10 ^ p := by
      unfold FiniteDouble.scaled
      simp only [Int.toNat_ofNat]
      have hexp : x.exp.toNat ≤ 971 := by omega
      have hb : x.mant * 2 ^ x.exp.toNat < 10 ^ 309 :=
        lt_of_lt_of_le (mant_pow_lt x.mant x.exp.toNat 971 hm hexp) double_range_bound
      exact Nat.mul_lt_mul_of_pos_right hb (by positivity)
    have h4 : (10 : Nat) ^ 309 * 10 ^ p + 1 ≤ 10 ^ (310 + p) := by
      rw [show 310 + p = 1 + (309 + p) by omega, pow_add, pow_add 10 309 p]
      have : 0 < (10 : Nat) ^ 309 * 10 ^ p := by positivity
      omega
    omega
  have hlen : (Nat.toDigits 10 (roundHalfEven (x.scaled p).1 (x.scaled p).2)).length
      ≤ 310 + p := Nat.toDigitsCore_length 10 (by decide) _ _ _ hR (by omega)
  have hds := zeroPad_length (p + 1)
    (Nat.toDigits 10 (roundHalfEven (x.scaled p).1 (x.scaled p).2))
  unfold Format_f
  simp only
  generalize zeroPad (p + 1)
    (Nat.toDigits 10 (roundHalfEven (x.scaled p).1 (x.scaled p).2)) = ds at hds
  have hs : (if x.neg = true then ['-'] else ([] : List Char)).length ≤ 1 := by
    split_ifs <;> simp
  split_ifs <;>
    simp only [List.length_append, List.length_take, List.length_cons, List.length_drop,
      List.length_nil] <;> omega

/-- On a string `I + d + T` with at least `N ≥ 1` characters after the separator,
`RemoveTrailingZeroes` leaves an initial segment of the string that keeps at least `N`
characters after the separator. -/
theorem RemoveTrailingZeroes_keeps (L : Separators) (I T : List Char) (N : Nat)
    (hd : L.decimalSep ≠ '0') (hI : I ≠ []) (hId : L.decimalSep ∉ I) (hN1 : 1 ≤ N)
    (hNT : N ≤ T.length) (hlen : (I ++ L.decimalSep :: T).length < SIZE_MOD) :
    ∃ r : List Char, RemoveTrailingZeroes L (I ++ L.decimalSep :: T) N = some r ∧
      N ≤ fractionLength L.decimalSep r ∧ r = (I ++ L.decimalSep :: T).take r.length := by
  refine ⟨I ++ L.decimalSep :: trimFraction N T, ?_, ?_, ?_⟩
  · rw [RemoveTrailingZeroes_eq L I T N hd hI hId hNT hlen, if_neg]
    intro h
    omega
  · rw [fractionLength_append_cons _ _ _ hId]
    exact trimFraction_length N T hNT
  · have e : (I ++ L.decimalSep :: trimFraction N T).length =
        I.length + (trimFraction N T).length + 1 := by
      simp only [List.length_append, List.length_cons]
      omega
    rw [e, take_sep, ← trimFraction_take]

/-- With the style `Style_TwoTrailingZeroes` alone and a specified precision,
`ToString` of a finite value is `RemoveTrailingZeroes(s, 2)` of its fixed-point
rendering. -/
theorem ToString_double_two (tr : List Char → List Char) (K : Separators) (x : FiniteDouble)
    (precision : Int) (hp : 0 ≤ precision) :
    ToString_double tr K (Double.finite x) precision Style_TwoTrailingZeroes =
      RemoveTrailingZeroes K (Format_f K.decimalSep precision.toNat x) 2 := by
  have h1 : precision ≠ -1 := by omega
  have f0 : hasFlag Style_TwoTrailingZeroes Style_WithThousandsSep = false := by decide
  have f1 : hasFlag Style_TwoTrailingZeroes Style_NoTrailingZeroes = false := by decide
  have f2 : hasFlag Style_TwoTrailingZeroes Style_OneTrailingZero = false := by decide
  have f3 : hasFlag Style_TwoTrailingZeroes Style_TwoTrailingZeroes = true := by decide
  have f4 : hasFlag Style_TwoTrailingZeroes Style_ThreeTrailingZeroes = false := by decide
  unfold ToString_double Format trimIf
  simp only [h1, hp, f0, f1, f2, f3, f4, if_true, if_false, Option.some_bind, ne_eq,
    not_false_eq_true, Bool.false_eq_true]
  cases RemoveTrailingZeroes K (Format_f K.decimalSep precision.toNat x) 2 <;> rfl

theorem exists_first_occurrence (d : Char) :
    ∀ s : List Char, d ∈ s → ∃ I T : List Char, s = I ++ d :: T ∧ d ∉ I := by
  intro s
  induction s with
  | nil => intro h; simp at h
  | cons a s ih =>
    intro h
    by_cases ha : a = d
    · exact ⟨[], s, by simp [ha], by simp⟩
    · have hs : d ∈ s := by
        rcases List.mem_cons.mp h with h1 | h1
        · exact absurd h1.symm ha
        · exact h1
      obtain ⟨I, T, hIT, hI⟩ := ih hs
      refine ⟨a :: I, T, by simp [hIT], ?_⟩
      intro hmem
      rcases List.mem_cons.mp hmem with h1 | h1
      · exact ha h1.symm
      · exact hI h1

theorem indexOf_append_cons_le (d : Char) (F : List Char) :
    ∀ J : List Char, (J ++ d :: F).indexOf d ≤ J.length := by
  intro J
  induction J with
  | nil => simp
  | cons a J ih =>
    by_cases ha : a = d
    · simp [ha]
    · simp only [List.cons_append, List.indexOf_cons_ne _ ha, List.length_cons]
      omega

/-- The string is left as it is when it starts with the decimal separator. -/
theorem RemoveTrailingZeroes_leading (L : Separators) (T : List Char) (N : Nat) :
    RemoveTrailingZeroes L (L.decimalSep :: T) N = some (L.decimalSep :: T) := by
  have hfind : wxString.find (L.decimalSep :: T) L.decimalSep = 0 := by
    simpa using wxString.find_append_cons L.decimalSep [] T (by simp)
  unfold RemoveTrailingZeroes
  simp only [hfind]
  rw [if_neg (by decide)]
  simp

/-- C4 as amended. `RemoveTrailingZeroes` only truncates. For every string
`I + d + T`, where `d` is the decimal separator and is not `0`, `I` is not empty and
does not contain `d`, and for every retain `N ≥ 1` with at least `N` characters after
the separator, the string left is an initial segment of the input that keeps at
least `N` characters after the separator. So `ToString(value, precision,
TwoTrailingZeroes)` shows at least 2 characters after the (first) decimal separator
for every finite `double` and every precision from 2 up (below `2 ^ 31`), when the
decimal separator is not `0`. -/
theorem RemoveTrailingZeroes_retains (L : Separators) (I T : List Char) (N : Nat)
    (tr : List Char → List Char) (K : Separators) (x : FiniteDouble) (precision : Int)
    (hd : L.decimalSep ≠ '0') (hI : I ≠ []) (hId : L.decimalSep ∉ I) (hN1 : 1 ≤ N)
    (hNT : N ≤ T.length) (hlen : (I ++ L.decimalSep :: T).length < SIZE_MOD)
    (hK : K.decimalSep ≠ '0') (hmant : x.mant < 2 ^ 53) (hexp : x.exp ≤ 971)
    (hp2 : 2 ≤ precision) (hp31 : precision < 2 ^ 31) :
    (∃ r : List Char, RemoveTrailingZeroes L (I ++ L.decimalSep :: T) N = some r ∧
      N ≤ fractionLength L.decimalSep r ∧ r = (I ++ L.decimalSep :: T).take r.length) ∧
    (∃ r : List Char,
      ToString_double tr K (Double.finite x) precision Style_TwoTrailingZeroes = some r ∧
      2 ≤ fractionLength K.decimalSep r) := by
  refine ⟨RemoveTrailingZeroes_keeps L I T N hd hI hId hN1 hNT hlen, ?_⟩
  rw [ToString_double_two tr K x precision (by omega)]
  have hlenF := Format_f_length K.decimalSep precision.toNat x hmant hexp
  obtain ⟨J, F, hshape, -, -, hF⟩ := Format_f_shape K.decimalSep precision.toNat x (by omega)
  obtain ⟨I', T', hsplit, hI'⟩ := exists_first_occurrence K.decimalSep
    (Format_f K.decimalSep precision.toNat x) (by rw [hshape]; simp)
  have hidx : I'.length ≤ J.length := by
    have h1 := indexOf_append_cons_le K.decimalSep F J
    rw [← hshape, hsplit, wxString.indexOf_append_cons K.decimalSep T' I' hI'] at h1
    exact h1
  have hTF : F.length ≤ T'.length := by
    have h2 : (I' ++ K.decimalSep :: T').length = (J ++ K.decimalSep :: F).length := by
      rw [← hsplit, ← hshape]
    simp only [List.length_append, List.length_cons] at h2
    omega
  rw [hsplit] at hlenF ⊢
  by_cases hnil : I' = []
  · subst hnil
    refine ⟨K.decimalSep :: T', ?_, ?_⟩
    · simpa using RemoveTrailingZeroes_leading K T' 2
    · have := fractionLength_append_cons K.decimalSep [] T' (by simp)
      simp only [List.nil_append] at this ⊢
      rw [this]
      omega
  · obtain ⟨r, hr, hfr, -⟩ := RemoveTrailingZeroes_keeps K I' T' 2 hK hnil hI' (by omega)
      (by omega) (by rw [SIZE_MOD_eq]; omega)
    exact ⟨r, hr, hfr⟩

/-- Witness of C4 as amended: `"1.5000"` with `retain = 2`, and the value 1.5 with
precision 3. -/
theorem RemoveTrailingZeroes_retains_witness :
    (('.' : Char) ≠ '0' ∧ "1".toList ≠ [] ∧ '.' ∉ "1".toList ∧ 1 ≤ 2 ∧
      2 ≤ "5000".toList.length ∧ ("1".toList ++ '.' :: "5000".toList).length < SIZE_MOD ∧
      ('.' : Char) ≠ '0' ∧ 3 < 2 ^ 53 ∧ (-1 : Int) ≤ 971 ∧
      (2 : Int) ≤ 3 ∧ (3 : Int) < 2 ^ 31) ∧
    ((∃ r : List Char,
        RemoveTrailingZeroes ⟨'.', none⟩ ("1".toList ++ '.' :: "5000".toList) 2 = some r ∧
        2 ≤ fractionLength '.' r ∧ r = ("1".toList ++ '.' :: "5000".toList).take r.length) ∧
      (∃ r : List Char,
        ToString_double (fun s => s) ⟨'.', none⟩ (Double.finite ⟨false, 3, -1⟩) 3
          Style_TwoTrailingZeroes = some r ∧
        2 ≤ fractionLength '.' r)) :=
  ⟨by decide,
    RemoveTrailingZeroes_retains ⟨'.', none⟩ "1".toList "5000".toList 2 (fun s => s)
      ⟨'.', none⟩ ⟨false, 3, -1⟩ 3 (by decide) (by decide) (by decide) (by decide) (by decide)
      (by decide) (by decide) (by decide) (by decide) (by decide) (by decide)⟩

/-- C4 as stated fails. `RemoveTrailingZeroes("1.5", 2)` asks `erase` for a position
past the end and leaves no string with two digits after the separator, and so does
`ToString(1.5, 1, TwoTrailingZeroes)`; `ToString(1000.0, 0, TwoTrailingZeroes)` is
`"1000"`, with no digit after a decimal point; and with `0` as decimal separator
`RemoveTrailingZeroes("1000", 1)` leaves `"1"`. -/
theorem RemoveTrailingZeroes_no_padding :
    (¬ ∃ r : List Char, RemoveTrailingZeroes ⟨'.', none⟩ "1.5".toList 2 = some r ∧
        2 ≤ fractionLength '.' r) ∧
    (¬ ∃ r : List Char,
        ToString_double (fun s => s) ⟨'.', none⟩ (Double.finite ⟨false, 3, -1⟩) 1
          Style_TwoTrailingZeroes = some r ∧
        2 ≤ fractionLength '.' r) ∧
    (¬ ∃ r : List Char,
        ToString_double (fun s => s) ⟨'.', none⟩ (Double.finite ⟨false, 1000, 0⟩) 0
          Style_TwoTrailingZeroes = some r ∧
        2 ≤ fractionLength '.' r) ∧
    (¬ ∃ r : List Char, RemoveTrailingZeroes ⟨'0', none⟩ "1000".toList 1 = some r ∧
        1 ≤ fractionLength '0' r) := by
  have e1 : RemoveTrailingZeroes ⟨'.', none⟩ "1.5".toList 2 = none := by decide
  have e2 : ToString_double (fun s => s) ⟨'.', none⟩ (Double.finite ⟨false, 3, -1⟩) 1
      Style_TwoTrailingZeroes = none := by decide
  have e3 : ToString_double (fun s => s) ⟨'.', none⟩ (Double.finite ⟨false, 1000, 0⟩) 0
      Style_TwoTrailingZeroes = some "1000".toList := by decide
  have e4 : RemoveTrailingZeroes ⟨'0', none⟩ "1000".toList 1 = some "1".toList := by decide
  refine ⟨?_, ?_, ?_, ?_⟩
  · rintro ⟨r, hr, -⟩
    rw [e1] at hr
    cases hr
  · rintro ⟨r, hr, -⟩
    rw [e2] at hr
    cases hr
  · rintro ⟨r, hr, hfr⟩
    rw [e3] at hr
    cases hr
    revert hfr
    decide
  · rintro ⟨r, hr, hfr⟩
    rw [e4] at hr
    cases hr
    revert hfr
    decide

/-! ## Parse failure -/

theorem Replace_nil (c : Char) (s : List Char) :
    wxString.Replace c [] s = s.filter (fun x => decide (x ≠ c)) := by
  induction s with
  | nil => rfl
  | cons a s ih =>
    by_cases h : a = c
    · simp [wxString.Replace, h, ih]
    · simp [wxString.Replace, h, ih]

theorem mem_RemoveThousandsSeparators (L : Separators) (s : List Char) (c : Char)
    (h : c ∈ RemoveThousandsSeparators L s) : c ∈ s ∧ L.thousandsSep ≠ some c := by
  unfold RemoveThousandsSeparators at h
  cases hL : L.thousandsSep with
  | none =>
    rw [hL] at h
    exact ⟨h, by simp⟩
  | some t =>
    rw [hL] at h
    simp only [Replace_nil, List.mem_filter, decide_eq_true_eq] at h
    refine ⟨h.1, ?_⟩
    intro e
    exact h.2 (Option.some.inj e).symm

theorem mem_takeSign (s : List Char) (c : Char) (h : c ∈ (takeSign s).2) : c ∈ s := by
  unfold takeSign at h
  split at h
  · exact List.mem_cons_of_mem _ h
  · exact List.mem_cons_of_mem _ h
  · exact h

theorem takeWhile_isDigit_nil (l : List Char) (h : ∀ c ∈ l, c.isDigit = false) :
    l.takeWhile Char.isDigit = [] := by
  cases l with
  | nil => rfl
  | cons a l => simp [List.takeWhile, h a (by simp)]

theorem parseInteger_none (lo hi : Int) (s : List Char) (h : ∀ c ∈ s, c.isDigit = false) :
    parseInteger lo hi s = none := by
  unfold parseInteger
  simp only
  rw [if_neg]
  rintro ⟨hne, hall⟩
  obtain ⟨a, l, hal⟩ := List.exists_cons_of_ne_nil hne
  have ha : a ∈ (takeSign (s.dropWhile isspace)).2 := by rw [hal]; simp
  have hs : a ∈ s := (List.dropWhile_sublist _).subset (mem_takeSign _ _ ha)
  have h1 := h a hs
  rw [hal] at hall
  simp only [List.all_cons, Bool.and_eq_true] at hall
  rw [h1] at hall
  exact absurd hall.1 (by decide)

theorem parseDecimal_none (dec : Char) (body : Bool × List Char)
    (h : ∀ c ∈ body.2, c.isDigit = false) : parseDecimal dec body = none := by
  unfold parseDecimal
  simp only
  generalize body.2 = b at h
  have hint : b.takeWhile Char.isDigit = [] := takeWhile_isDigit_nil b h
  have hfrac : (b.dropWhile Char.isDigit).tail.takeWhile Char.isDigit = [] := by
    apply takeWhile_isDigit_nil
    intro c hc
    exact h c ((List.dropWhile_sublist _).subset (List.mem_of_mem_tail hc))
  rw [hint, hfrac]
  simp

theorem parseHexadecimal_none (dec : Char) (b : List Char)
    (h : ∀ c ∈ b, c.isDigit = false) : parseHexadecimal dec b = none := by
  unfold parseHexadecimal
  split
  · rename_i c0 x rest
    rw [if_neg]
    rintro ⟨h0, -⟩
    have h1 := h c0 (by simp)
    rw [h0] at h1
    exact absurd h1 (by decide)
  · rfl

theorem ToDouble_no_digit (dec : Char) (s : List Char) (h : ∀ c ∈ s, c.isDigit = false) :
    ToDouble dec s = parseInfNan (takeSign (s.dropWhile isspace)) := by
  have hbody : ∀ c ∈ (takeSign (s.dropWhile isspace)).2, c.isDigit = false :=
    fun c hc => h c ((List.dropWhile_sublist _).subset (mem_takeSign _ _ hc))
  unfold ToDouble
  simp only
  rw [parseHexadecimal_none dec _ hbody, parseDecimal_none dec _ hbody]
  cases parseInfNan (takeSign (s.dropWhile isspace)) <;> rfl

/-- Counterexample to C8: the strings `nan` and `-Infinity` contain no decimal digit,
and the `double` overload of `FromString` returns `true` on them, with a NaN and with
the negative infinity as the value read; stripping the thousands separator `,` from
`i,nf` leaves `inf`, which is read as well. -/
theorem FromString_double_reads_nan :
    (∀ c ∈ "nan".toList, c.isDigit = false) ∧
    FromString_double ⟨'.', none⟩ "nan".toList = some Double.nan ∧
    (∀ c ∈ "-Infinity".toList, c.isDigit = false) ∧
    FromString_double ⟨'.', none⟩ "-Infinity".toList = some (Double.inf true) ∧
    FromString_double ⟨'.', some ','⟩ "i,nf".toList = some (Double.inf false) := by
  decide

/-- C8 as amended. For any resolved thousands separator (or none) and every string in
which each character is either not a decimal digit or is the thousands separator in
use (the empty string, every string without numeric text, every string made only of
thousands separators), the `long` and `long long` overloads of `FromString` return
`false`, and the `double` overload returns exactly what the infinity and NaN forms of
the parse routine give for the stripped text after its white space and sign: `false`
unless that text is `inf`, `infinity`, `nan` or `nan(...)` in some letter case. -/
theorem FromString_without_digits (L : Separators) (s : List Char)
    (h : ∀ c ∈ s, c.isDigit = false ∨ L.thousandsSep = some c) :
    FromString_long L s = none ∧ FromString_longlong L s = none ∧
      FromString_double L s =
        parseInfNan (takeSign ((RemoveThousandsSeparators L s).dropWhile isspace)) := by
  have hr : ∀ c ∈ RemoveThousandsSeparators L s, c.isDigit = false := by
    intro c hc
    obtain ⟨hs, hne⟩ := mem_RemoveThousandsSeparators L s c hc
    rcases h c hs with h1 | h1
    · exact h1
    · exact absurd h1 hne
  exact ⟨parseInteger_none _ _ _ hr, parseInteger_none _ _ _ hr, ToDouble_no_digit _ _ hr⟩

/-- Witness of C8 as amended: the string `",x,"` with `,` as thousands separator, on
which the three overloads return `false`. -/
theorem FromString_without_digits_witness :
    (∀ c ∈ ",x,".toList, c.isDigit = false ∨ (⟨'.', some ','⟩ : Separators).thousandsSep = some c) ∧
    parseInfNan (takeSign ((RemoveThousandsSeparators ⟨'.', some ','⟩ ",x,".toList).dropWhile
      isspace)) = none ∧
    (FromString_long ⟨'.', some ','⟩ ",x,".toList = none ∧
      FromString_longlong ⟨'.', some ','⟩ ",x,".toList = none ∧
      FromString_double ⟨'.', some ','⟩ ",x,".toList =
        parseInfNan (takeSign ((RemoveThousandsSeparators ⟨'.', some ','⟩ ",x,".toList).dropWhile
          isspace))) :=
  ⟨by decide, by decide, FromString_without_digits ⟨'.', some ','⟩ ",x,".toList (by decide)⟩

/-! ## Grouping -/

theorem groupDigits_short (c : Char) : ∀ A : List Char, A.length ≤ 3 → groupDigits c A = A := by
  intro A
  induction A with
  | nil => intro _; rfl
  | cons a A ih =>
    intro h
    simp only [List.length_cons] at h
    rw [groupDigits, if_neg, ih (by omega)]
    rintro ⟨hne, hmod⟩
    have : 0 < A.length := List.length_pos.mpr hne
    omega

theorem groupDigits_append (c : Char) (B : List Char) (hB : B.length = 3) :
    ∀ A : List Char, A ≠ [] → groupDigits c (A ++ B) = groupDigits c A ++ c :: B := by
  intro A
  induction A with
  | nil => intro h; exact absurd rfl h
  | cons a A ih =>
    intro _
    by_cases hA : A = []
    · subst hA
      have hBne : B ≠ [] := by
        intro e
        rw [e] at hB
        simp at hB
      have e1 : groupDigits c [a] = [a] := groupDigits_short c [a] (by simp)
      show groupDigits c (a :: B) = groupDigits c [a] ++ c :: B
      rw [e1, groupDigits, if_pos ⟨hBne, by omega⟩, groupDigits_short c B (by omega)]
      rfl
    · have hcond : ((A ++ B) ≠ [] ∧ (A ++ B).length % 3 = 0) ↔ (A ≠ [] ∧ A.length % 3 = 0) := by
        simp only [List.length_append, hB, ne_eq, List.append_eq_nil, hA, false_and,
          not_false_eq_true, true_and]
        omega
      show groupDigits c (a :: (A ++ B)) = groupDigits c (a :: A) ++ c :: B
      rw [groupDigits, groupDigits, ih hA]
      by_cases hc : A ≠ [] ∧ A.length % 3 = 0
      · rw [if_pos (hcond.mpr hc), if_pos hc]
        rfl
      · rw [if_neg (fun h => hc (hcond.mp h)), if_neg hc]
        rfl

theorem insert_middle (sign A T : List Char) (k : Nat) (c : Char) (hk : k ≤ A.length) :
    wxString.insert (sign ++ A ++ T) (sign.length + k) c =
      some (sign ++ A.take k ++ (c :: (A.drop k ++ T))) := by
  unfold wxString.insert
  rw [if_pos (by simp only [List.length_append]; omega)]
  congr 1
  rw [List.append_assoc, List.take_append, List.drop_append,
    List.take_append_of_le_length hk, List.drop_append_of_le_length hk]

/-- The loop of `AddThousandsSeparators` on `sign + A + T`, entered with `pos` at the
end of `A` and `start` at its beginning, groups `A` as the specification says. -/
theorem loop_groupDigits (c : Char) (sign : List Char) :
    ∀ (fuel : Nat) (A T : List Char), A.length ≤ fuel → sign.length + A.length < SIZE_MOD →
      AddThousandsSeparators.loop c (sign.length + GROUP_LEN) fuel (sign.length + A.length)
          (sign ++ A ++ T) = some (sign ++ groupDigits c A ++ T) := by
  intro fuel
  induction fuel with
  | zero =>
    intro A T hA _
    have : A = [] := List.length_eq_zero.mp (by omega)
    subst this
    simp [AddThousandsSeparators.loop, groupDigits, GROUP_LEN]
  | succ fuel ih =>
    intro A T hA hlt
    rw [SIZE_MOD_eq] at hlt
    rw [AddThousandsSeparators.loop]
    by_cases h3 : A.length ≤ 3
    · rw [if_neg (by simp only [GROUP_LEN]; omega), groupDigits_short c A h3]
    · rw [if_pos (by simp only [GROUP_LEN]; omega)]
      have hpos : (sign.length + A.length + SIZE_MOD - GROUP_LEN) % SIZE_MOD =
          sign.length + (A.length - 3) := by
        simp only [GROUP_LEN, SIZE_MOD_eq]
        omega
      rw [hpos, insert_middle sign A T (A.length - 3) c (by omega), Option.some_bind]
      have hlen : (A.take (A.length - 3)).length = A.length - 3 := by
        rw [List.length_take]
        omega
      have hrec := ih (A.take (A.length - 3)) (c :: (A.drop (A.length - 3) ++ T))
        (by rw [hlen]; omega) (by rw [hlen, SIZE_MOD_eq]; omega)
      rw [hlen] at hrec
      rw [hrec]
      have hsplit : groupDigits c A =
          groupDigits c (A.take (A.length - 3)) ++ c :: A.drop (A.length - 3) := by
        conv_lhs => rw [← List.take_append_drop (A.length - 3) A]
        apply groupDigits_append
        · rw [List.length_drop]
          omega
        · intro e
          rw [e] at hlen
          simp at hlen
          omega
      rw [hsplit]
      simp

theorem find_first_of_append (set P R : List Char) (a : Char)
    (hP : ∀ c ∈ P, c ∉ set) (ha : a ∈ set) :
    wxString.find_first_of (P ++ a :: R) set = P.length := by
  have hidx : (P ++ a :: R).findIdx (fun c => set.contains c) = P.length := by
    rw [List.findIdx_append]
    have h1 : P.findIdx (fun c => set.contains c) = P.length := by
      apply List.findIdx_eq_length_of_false
      intro c hc
      simpa using hP c hc
    rw [h1]
    simp [List.findIdx_cons, ha]
  unfold wxString.find_first_of
  rw [hidx]
  simp

theorem find_first_of_cases (s set : List Char) :
    wxString.find_first_of s set = npos ∨ wxString.find_first_of s set < s.length := by
  unfold wxString.find_first_of
  split_ifs with h
  · exact Or.inr h
  · exact Or.inl rfl

theorem find_cases (s : List Char) (d : Char) :
    wxString.find s d = npos ∨ wxString.find s d < s.length := by
  unfold wxString.find
  split_ifs with h
  · exact Or.inr h
  · exact Or.inl rfl

theorem Replace_insert (c : Char) (s : List Char) (k : Nat) :
    wxString.Replace c [] (s.take k ++ c :: s.drop k) = wxString.Replace c [] s := by
  simp only [Replace_nil, List.filter_append, List.filter_cons, ne_eq, not_true_eq_false,
    decide_False, Bool.false_eq_true, if_false]
  rw [← List.filter_append, List.take_append_drop]

/-- The loop of `AddThousandsSeparators` ends, and what it returns is the string it
was given with occurrences of the separator added. -/
theorem loop_some (c : Char) (limit : Nat) (hlimit : 2 ≤ limit) :
    ∀ (fuel pos : Nat) (s : List Char), pos ≤ fuel → pos ≤ s.length → pos < SIZE_MOD →
      ∃ r : List Char, AddThousandsSeparators.loop c limit fuel pos s = some r ∧
        wxString.Replace c [] r = wxString.Replace c [] s := by
  intro fuel
  induction fuel with
  | zero =>
    intro pos s h0 _ _
    refine ⟨s, ?_, rfl⟩
    rw [AddThousandsSeparators.loop, if_neg (by omega)]
  | succ fuel ih =>
    intro pos s hf hs hM
    rw [AddThousandsSeparators.loop]
    by_cases h : pos > limit
    · rw [if_pos h]
      have hpos : (pos + SIZE_MOD - GROUP_LEN) % SIZE_MOD = pos - 3 := by
        rw [SIZE_MOD_eq] at hM ⊢
        simp only [GROUP_LEN]
        omega
      rw [hpos]
      unfold wxString.insert
      rw [if_pos (by omega), Option.some_bind]
      obtain ⟨r, hr, hrep⟩ := ih (pos - 3) (s.take (pos - 3) ++ c :: s.drop (pos - 3))
        (by omega) (by simp only [List.length_append, List.length_take, List.length_cons,
          List.length_drop]; omega) (by omega)
      exact ⟨r, hr, by rw [hrep, Replace_insert]⟩
    · rw [if_neg h]
      exact ⟨s, rfl, rfl⟩

/-- `AddThousandsSeparators` returns, and removing the separators from what it
returns gives what removing them from its argument gives. -/
theorem AddThousandsSeparators_some (L : Separators) (s : List Char)
    (hlen : s.length + 3 < SIZE_MOD) :
    ∃ r : List Char, AddThousandsSeparators L s = some r ∧
      RemoveThousandsSeparators L r = RemoveThousandsSeparators L s := by
  unfold AddThousandsSeparators RemoveThousandsSeparators
  cases hL : L.thousandsSep with
  | none => exact ⟨s, rfl, rfl⟩
  | some c =>
    simp only
    apply loop_some
    · rw [SIZE_MOD_eq] at hlen ⊢
      rcases find_first_of_cases s "0123456789".toList with h | h
      · rw [h, npos_eq]
        decide
      · simp only [GROUP_LEN]
        omega
    · split_ifs with h
      · exact Nat.le_refl _
      · rcases find_cases s L.decimalSep with h1 | h1
        · exact absurd h1 h
        · omega
    · split_ifs with h
      · exact Nat.le_refl _
      · rcases find_cases s L.decimalSep with h1 | h1
        · exact absurd h1 h
        · omega
    · split_ifs with h
      · omega
      · rcases find_cases s L.decimalSep with h1 | h1
        · exact absurd h1 h
        · omega

/-! ## Integer round trip -/

theorem Format_ld_mem (v : Int) : ∀ c ∈ Format_ld v, c = '-' ∨ c ∈ "0123456789".toList := by
  intro c hc
  unfold Format_ld at hc
  split_ifs at hc
  · rcases List.mem_cons.mp hc with h | h
    · exact Or.inl h
    · exact Or.inr (toDigits_mem _ c h)
  · exact Or.inr (toDigits_mem _ c hc)

theorem Format_ld_length (v : Int) : (Format_ld v).length ≤ v.natAbs + 2 := by
  have := toDigits_length_le v.natAbs
  unfold Format_ld
  split_ifs
  · simp only [List.length_cons]
    omega
  · omega

theorem RemoveThousandsSeparators_id (L : Separators) (s : List Char)
    (h : ∀ c, L.thousandsSep = some c → c ∉ s) : RemoveThousandsSeparators L s = s := by
  unfold RemoveThousandsSeparators
  cases hL : L.thousandsSep with
  | none => rfl
  | some c =>
    simp only [Replace_nil]
    rw [List.filter_eq_self]
    intro a ha
    have := h c hL
    simp only [ne_eq, decide_eq_true_eq]
    intro e
    exact this (e ▸ ha)

theorem takeSign_digit (a : Char) (rest : List Char) (ha : a ∈ "0123456789".toList) :
    takeSign (a :: rest) = (false, a :: rest) := by
  have h : a ≠ '-' ∧ a ≠ '+' := by
    revert a
    decide
  unfold takeSign
  split
  · rename_i heq
    exact absurd (List.cons.inj heq).1 h.1
  · rename_i heq
    exact absurd (List.cons.inj heq).1 h.2
  · rfl

theorem isspace_digit (a : Char) (ha : a ∈ "0123456789".toList) : isspace a = false := by
  revert a
  decide

/-- Parsing an optional `-` followed by decimal digits gives the value of the digits,
negated under the sign, when it is in range. -/
theorem parseInteger_digits (lo hi : Int) (neg : Bool) (ds : List Char) (hne : ds ≠ [])
    (hds : ∀ c ∈ ds, c ∈ "0123456789".toList)
    (hlo : lo ≤ (if neg then -(decimalValue ds : Int) else (decimalValue ds : Int)))
    (hhi : (if neg then -(decimalValue ds : Int) else (decimalValue ds : Int)) ≤ hi) :
    parseInteger lo hi ((if neg then ['-'] else []) ++ ds) =
      some (if neg then -(decimalValue ds : Int) else (decimalValue ds : Int)) := by
  obtain ⟨a, rest, hal⟩ := List.exists_cons_of_ne_nil hne
  have ha : a ∈ "0123456789".toList := hds a (by rw [hal]; simp)
  have hbody : takeSign (((if neg then ['-'] else []) ++ ds).dropWhile isspace) = (neg, ds) := by
    cases neg with
    | true =>
      have : (['-'] ++ ds).dropWhile isspace = '-' :: ds := by
        rw [List.singleton_append, List.dropWhile_cons_of_neg (by decide)]
      simp only [if_true, this]
      rfl
    | false =>
      simp only [Bool.false_eq_true, if_false, List.nil_append]
      rw [hal, List.dropWhile_cons_of_neg (by rw [isspace_digit a ha]; decide),
        takeSign_digit a rest ha]
  have hall : ds.all Char.isDigit = true := by
    rw [List.all_eq_true]
    intro c hc
    exact isDigit_of_mem c (hds c hc)
  unfold parseInteger
  simp only [hbody]
  rw [if_pos ⟨hne, hall⟩, if_pos ⟨hlo, hhi⟩]

theorem Format_ld_eq (v : Int) :
    Format_ld v = (if decide (v < 0) then ['-'] else []) ++ Nat.toDigits 10 v.natAbs := by
  by_cases h : v < 0 <;> simp [Format_ld, h]

theorem ToLong_Format_ld (v : Int) (hlo : LONG_MIN ≤ v) (hhi : v ≤ LONG_MAX) :
    ToLong (Format_ld v) = some v := by
  have hval : (if decide (v < 0) then -(decimalValue (Nat.toDigits 10 v.natAbs) : Int)
      else (decimalValue (Nat.toDigits 10 v.natAbs) : Int)) = v := by
    rw [decimalValue_toDigits]
    by_cases h : v < 0
    · simp only [h, decide_True, if_true]
      omega
    · simp only [h, decide_False, Bool.false_eq_true, if_false]
      omega
  unfold ToLong
  rw [Format_ld_eq, parseInteger_digits LONG_MIN LONG_MAX (decide (v < 0)) _
    (toDigits_ne_nil _) (toDigits_mem _) (by rw [hval]; exact hlo) (by rw [hval]; exact hhi),
    hval]

theorem long_length_bound (v : Int) (hlo : LONG_MIN ≤ v) (hhi : v ≤ LONG_MAX) :
    (Format_ld v).length + 3 < SIZE_MOD := by
  have h := Format_ld_length v
  have h1 : (LONG_MIN : Int) = -9223372036854775808 := by decide
  have h2 : (LONG_MAX : Int) = 9223372036854775807 := by decide
  rw [h1] at hlo
  rw [h2] at hhi
  rw [SIZE_MOD_eq]
  omega

/-- C1 as amended. For every `long` value `v`, for every style (the two styles `0`
and `WithThousandsSep` in particular) and for every resolved thousands separator
that is neither a decimal digit nor `-` (or none), whatever the decimal separator,
`ToString(v, style)` returns a string on which `FromString`, called with the same
resolved separators, succeeds and writes back exactly `v`. -/
theorem FromString_ToString_long (L : Separators) (v : Int) (style : Nat)
    (hlo : LONG_MIN ≤ v) (hhi : v ≤ LONG_MAX)
    (hsep : ∀ c, L.thousandsSep = some c → c ∉ "0123456789".toList ∧ c ≠ '-') :
    ∃ s : List Char, ToString_long L v style = some s ∧ FromString_long L s = some v := by
  have hid : RemoveThousandsSeparators L (Format_ld v) = Format_ld v := by
    apply RemoveThousandsSeparators_id
    intro c hc hmem
    rcases Format_ld_mem v c hmem with h | h
    · exact (hsep c hc).2 h
    · exact (hsep c hc).1 h
  unfold ToString_long PostProcessIntString FromString_long
  by_cases hflag : hasFlag style Style_WithThousandsSep = true
  · rw [if_pos hflag]
    obtain ⟨r, hr, hrem⟩ := AddThousandsSeparators_some L (Format_ld v)
      (long_length_bound v hlo hhi)
    exact ⟨r, hr, by rw [hrem, hid, ToLong_Format_ld v hlo hhi]⟩
  · rw [if_neg hflag]
    exact ⟨Format_ld v, rfl, by rw [hid, ToLong_Format_ld v hlo hhi]⟩

/-- Witness of C1 as amended: `-1234567` with `.` as thousands separator. -/
theorem FromString_ToString_long_witness :
    (LONG_MIN ≤ -1234567 ∧ (-1234567 : Int) ≤ LONG_MAX ∧
      (∀ c, (⟨',', some '.'⟩ : Separators).thousandsSep = some c →
        c ∉ "0123456789".toList ∧ c ≠ '-')) ∧
    ∃ s : List Char, ToString_long ⟨',', some '.'⟩ (-1234567) Style_WithThousandsSep = some s ∧
      FromString_long ⟨',', some '.'⟩ s = some (-1234567) :=
  ⟨⟨by decide, by decide, by
      intro c hc
      cases hc
      decide⟩,
    FromString_ToString_long ⟨',', some '.'⟩ (-1234567) Style_WithThousandsSep (by decide)
      (by decide) (by
        intro c hc
        cases hc
        decide)⟩

/-- C1 as stated fails for a thousands separator that occurs in the rendering. With
`-` as separator, `-1234` is rendered as `"-1-234"` and read back as `1234`; with `0`
as separator, `10` is rendered as `"10"` and read back as `1`. -/
theorem FromString_ToString_long_sign_lost :
    (ToString_long ⟨'.', some '-'⟩ (-1234) Style_WithThousandsSep).bind
        (FromString_long ⟨'.', some '-'⟩) = some 1234 ∧
      (ToString_long ⟨'.', some '0'⟩ 10 Style_None).bind
        (FromString_long ⟨'.', some '0'⟩) = some 1 := by
  decide

/-! ## Integer grouping -/

/-- Grouping of an integer rendering when the decimal separator does not occur in
it. -/
theorem AddThousandsSeparators_Format_ld (L : Separators) (v : Int) (c : Char)
    (hc : L.thousandsSep = some c) (hlo : LONG_MIN ≤ v) (hhi : v ≤ LONG_MAX)
    (hdig : L.decimalSep ∉ "0123456789".toList) (hminus : L.decimalSep ≠ '-') :
    AddThousandsSeparators L (Format_ld v) =
      some ((if v < 0 then ['-'] else []) ++ groupDigits c (Nat.toDigits 10 v.natAbs)) := by
  have hbound := long_length_bound v hlo hhi
  have hnotin : L.decimalSep ∉ Format_ld v := by
    intro hmem
    rcases Format_ld_mem v _ hmem with h | h
    · exact hminus h
    · exact hdig h
  have hfind := wxString.find_of_not_mem L.decimalSep (Format_ld v) hnotin
  obtain ⟨a, rest, hal⟩ := List.exists_cons_of_ne_nil (toDigits_ne_nil v.natAbs)
  have ha : a ∈ "0123456789".toList := toDigits_mem v.natAbs a (by rw [hal]; simp)
  have hsign : ∀ x ∈ (if decide (v < 0) then ['-'] else ([] : List Char)),
      x ∉ "0123456789".toList := by
    intro x hx
    split_ifs at hx
    · rw [List.mem_singleton.mp hx]
      decide
    · simp at hx
  have hsl : (if decide (v < 0) then ['-'] else ([] : List Char)).length ≤ 1 := by
    split_ifs <;> simp
  have hstart : wxString.find_first_of (Format_ld v) "0123456789".toList =
      (if decide (v < 0) then ['-'] else ([] : List Char)).length := by
    rw [Format_ld_eq, hal]
    exact find_first_of_append _ _ rest a hsign ha
  unfold AddThousandsSeparators
  simp only [hc]
  rw [hfind, if_pos rfl, hstart]
  have hlimit : ((if decide (v < 0) then ['-'] else ([] : List Char)).length + GROUP_LEN) %
      SIZE_MOD = (if decide (v < 0) then ['-'] else ([] : List Char)).length + GROUP_LEN := by
    rw [SIZE_MOD_eq]
    simp only [GROUP_LEN]
    omega
  rw [hlimit]
  have hs : Format_ld v =
      (if decide (v < 0) then ['-'] else ([] : List Char)) ++ Nat.toDigits 10 v.natAbs ++ [] := by
    rw [List.append_nil]
    exact Format_ld_eq v
  have hl : (Format_ld v).length =
      (if decide (v < 0) then ['-'] else ([] : List Char)).length +
        (Nat.toDigits 10 v.natAbs).length := by
    rw [Format_ld_eq, List.length_append]
  rw [hl] at hbound
  have key := loop_groupDigits c (if decide (v < 0) then ['-'] else ([] : List Char))
    ((if decide (v < 0) then ['-'] else ([] : List Char)).length +
      (Nat.toDigits 10 v.natAbs).length)
    (Nat.toDigits 10 v.natAbs) [] (by omega) (by omega)
  rw [hl]
  conv_lhs => rw [hs]
  rw [key, List.append_nil]
  by_cases h : v < 0 <;> simp [h]

/-- C2 as amended. For every `long` value `v`, when the thousands separator is a
character `c` and the decimal separator is neither a decimal digit nor `-`,
`ToString(v, style)` with `WithThousandsSep` set is the base-10 rendering of `v` (a
leading `-` when negative) with `c` written after a digit exactly when the number of
digits to its right is a positive multiple of 3 (`groupDigits`); the sign is not
counted. -/
theorem ToString_long_groups (L : Separators) (v : Int) (c : Char) (style : Nat)
    (hc : L.thousandsSep = some c) (hflag : hasFlag style Style_WithThousandsSep = true)
    (hlo : LONG_MIN ≤ v) (hhi : v ≤ LONG_MAX)
    (hdig : L.decimalSep ∉ "0123456789".toList) (hminus : L.decimalSep ≠ '-') :
    ToString_long L v style =
      some ((if v < 0 then ['-'] else []) ++ groupDigits c (Nat.toDigits 10 v.natAbs)) := by
  unfold ToString_long PostProcessIntString
  rw [if_pos hflag]
  exact AddThousandsSeparators_Format_ld L v c hc hlo hhi hdig hminus

/-- Witness of C2 as amended: `-1234` with `,` as thousands separator and `.` as
decimal separator, rendered as `"-1,234"`. -/
theorem ToString_long_groups_witness :
    ((⟨'.', some ','⟩ : Separators).thousandsSep = some ',' ∧
      hasFlag Style_WithThousandsSep Style_WithThousandsSep = true ∧
      LONG_MIN ≤ -1234 ∧ (-1234 : Int) ≤ LONG_MAX ∧
      '.' ∉ "0123456789".toList ∧ ('.' : Char) ≠ '-') ∧
    ToString_long ⟨'.', some ','⟩ (-1234) Style_WithThousandsSep =
      some ((if (-1234 : Int) < 0 then ['-'] else []) ++
        groupDigits ',' (Nat.toDigits 10 (-1234 : Int).natAbs)) :=
  ⟨by decide,
    ToString_long_groups ⟨'.', some ','⟩ (-1234) ',' Style_WithThousandsSep (by decide)
      (by decide) (by decide) (by decide) (by decide) (by decide)⟩

/-- C2 as stated fails when the decimal separator occurs in the rendering. With `5`
as decimal separator, grouping of `1234567` starts at the `5` and the result is
`"1,234567"`, not `"1,234,567"`; with `-` as decimal separator, `-1234567` is not
grouped at all. -/
theorem ToString_long_digit_as_decimal_separator :
    ToString_long ⟨'5', some ','⟩ 1234567 Style_WithThousandsSep = some "1,234567".toList ∧
      ToString_long ⟨'5', some ','⟩ 1234567 Style_WithThousandsSep ≠
        some (groupDigits ',' (Nat.toDigits 10 1234567)) ∧
      ToString_long ⟨'-', some ','⟩ (-1234567) Style_WithThousandsSep =
        some "-1234567".toList ∧
      ToString_long ⟨'-', some ','⟩ (-1234567) Style_WithThousandsSep ≠
        some ('-' :: groupDigits ',' (Nat.toDigits 10 1234567)) := by
  decide

/-! ## Locale identity, styles of the integer conversions, blind stripping, early returns -/

theorem hasFlag_or (style flag : Nat) (h : Style_WithThousandsSep &&& flag = 0) :
    hasFlag (style ||| flag) Style_WithThousandsSep = hasFlag style Style_WithThousandsSep := by
  unfold hasFlag
  rw [Nat.and_comm (style ||| flag), Nat.and_or_distrib_left, h, Nat.or_zero,
    Nat.and_comm style]

/-- The integer conversions look at the `WithThousandsSep` bit of the style only. -/
theorem PostProcessIntString_congr (L : Separators) (s : List Char) (style1 style2 : Nat)
    (h : hasFlag style1 Style_WithThousandsSep = hasFlag style2 Style_WithThousandsSep) :
    PostProcessIntString L s style1 = PostProcessIntString L s style2 := by
  unfold PostProcessIntString
  rw [h]

/-- C14. `LocaleId::NotInitializedOrHasChanged` returns `true` on the first call on
an object; on a call that follows a call made under the pair `prev`, it returns `true`
exactly when the current pair differs from `prev` in the toolkit locale handle or in
the C locale name (names compared by value); and after every call the object records
the current pair. -/
theorem LocaleId.NotInitializedOrHasChanged_spec (self : LocaleId) (prev cur : ProcessLocale) :
    (LocaleId.init.NotInitializedOrHasChanged cur).1 = true ∧
      ((self.NotInitializedOrHasChanged prev).2.NotInitializedOrHasChanged cur).1 =
        decide (prev.wxloc ≠ cur.wxloc ∨ prev.cloc ≠ cur.cloc) ∧
      (self.NotInitializedOrHasChanged cur).2 = ⟨cur.wxloc, some cur.cloc⟩ := by
  refine ⟨by simp [LocaleId.init, LocaleId.NotInitializedOrHasChanged], ?_,
    LocaleId.NotInitializedOrHasChanged_snd self cur⟩
  rw [LocaleId.NotInitializedOrHasChanged_snd self prev]
  unfold LocaleId.NotInitializedOrHasChanged
  by_cases h : prev.wxloc = cur.wxloc ∧ prev.cloc = cur.cloc
  · simp [h.1, h.2]
  · have h2 : prev.wxloc ≠ cur.wxloc ∨ prev.cloc ≠ cur.cloc := by
      by_contra hc
      push_neg at hc
      exact h hc
    simp only [ne_eq, reduceCtorEq, not_false_eq_true, or_true, if_true, Option.some.injEq, h,
      if_false, h2, decide_True]

/-- C15. For every integer `v` and every two styles that agree on the
`WithThousandsSep` bit, `ToString(v, style1) = ToString(v, style2)`, for `long` and for
`long long`; in particular setting `NoTrailingZeroes`, `OneTrailingZero`,
`TwoTrailingZeroes` or `ThreeTrailingZeroes` never changes the returned string. -/
theorem ToString_long_ignores_trim_flags (L : Separators) (v : Int) (style1 style2 : Nat)
    (h : hasFlag style1 Style_WithThousandsSep = hasFlag style2 Style_WithThousandsSep) :
    ToString_long L v style1 = ToString_long L v style2 ∧
      ToString_longlong L v style1 = ToString_longlong L v style2 ∧
      ToString_long L v (style1 ||| Style_NoTrailingZeroes) = ToString_long L v style1 ∧
      ToString_long L v (style1 ||| Style_OneTrailingZero) = ToString_long L v style1 ∧
      ToString_long L v (style1 ||| Style_TwoTrailingZeroes) = ToString_long L v style1 ∧
      ToString_long L v (style1 ||| Style_ThreeTrailingZeroes) = ToString_long L v style1 :=
  ⟨PostProcessIntString_congr L _ _ _ h, PostProcessIntString_congr L _ _ _ h,
    PostProcessIntString_congr L _ _ _ (hasFlag_or _ _ (by decide)),
    PostProcessIntString_congr L _ _ _ (hasFlag_or _ _ (by decide)),
    PostProcessIntString_congr L _ _ _ (hasFlag_or _ _ (by decide)),
    PostProcessIntString_congr L _ _ _ (hasFlag_or _ _ (by decide))⟩

/-- Witness of C15: `1000` with no flag and with the four trailing-zero flags set. -/
theorem ToString_long_ignores_trim_flags_witness :
    hasFlag Style_None Style_WithThousandsSep = hasFlag 0x1E Style_WithThousandsSep ∧
    (ToString_long ⟨'.', some ','⟩ 1000 Style_None = ToString_long ⟨'.', some ','⟩ 1000 0x1E ∧
      ToString_longlong ⟨'.', some ','⟩ 1000 Style_None =
        ToString_longlong ⟨'.', some ','⟩ 1000 0x1E ∧
      ToString_long ⟨'.', some ','⟩ 1000 (Style_None ||| Style_NoTrailingZeroes) =
        ToString_long ⟨'.', some ','⟩ 1000 Style_None ∧
      ToString_long ⟨'.', some ','⟩ 1000 (Style_None ||| Style_OneTrailingZero) =
        ToString_long ⟨'.', some ','⟩ 1000 Style_None ∧
      ToString_long ⟨'.', some ','⟩ 1000 (Style_None ||| Style_TwoTrailingZeroes) =
        ToString_long ⟨'.', some ','⟩ 1000 Style_None ∧
      ToString_long ⟨'.', some ','⟩ 1000 (Style_None ||| Style_ThreeTrailingZeroes) =
        ToString_long ⟨'.', some ','⟩ 1000 Style_None) :=
  ⟨by decide, ToString_long_ignores_trim_flags ⟨'.', some ','⟩ 1000 Style_None 0x1E (by decide)⟩

/-- The string is left as it is when it holds no decimal separator. -/
theorem RemoveTrailingZeroes_absent (L : Separators) (s : List Char) (retain : Nat)
    (hs : L.decimalSep ∉ s) : RemoveTrailingZeroes L s retain = some s := by
  unfold RemoveTrailingZeroes
  simp only [wxString.find_of_not_mem L.decimalSep s hs, if_true]

/-- With the style `Style_NoTrailingZeroes` alone and a specified precision,
`ToString` of a finite value is `RemoveTrailingZeroes(s, 0)` of its fixed-point
rendering. -/
theorem ToString_double_no (tr : List Char → List Char) (L : Separators) (x : FiniteDouble)
    (precision : Int) (hp : 0 ≤ precision) :
    ToString_double tr L (Double.finite x) precision Style_NoTrailingZeroes =
      RemoveTrailingZeroes L (Format_f L.decimalSep precision.toNat x) 0 := by
  have h1 : precision ≠ -1 := by omega
  have f0 : hasFlag Style_NoTrailingZeroes Style_WithThousandsSep = false := by decide
  have f1 : hasFlag Style_NoTrailingZeroes Style_NoTrailingZeroes = true := by decide
  have f2 : hasFlag Style_NoTrailingZeroes Style_OneTrailingZero = false := by decide
  have f3 : hasFlag Style_NoTrailingZeroes Style_TwoTrailingZeroes = false := by decide
  have f4 : hasFlag Style_NoTrailingZeroes Style_ThreeTrailingZeroes = false := by decide
  unfold ToString_double Format trimIf
  simp only [h1, hp, f0, f1, f2, f3, f4, if_true, if_false, Option.some_bind, ne_eq,
    not_false_eq_true, Bool.false_eq_true]
  cases RemoveTrailingZeroes L (Format_f L.decimalSep precision.toNat x) 0 <;> rfl

/-- A `%.0f` rendering is made of an optional `-` and decimal digits: it holds no
decimal separator unless the separator is a digit or `-`. -/
theorem Format_f_zero_no_separator (dec : Char) (x : FiniteDouble)
    (hdig : dec ∉ "0123456789".toList) (hminus : dec ≠ '-') : dec ∉ Format_f dec 0 x := by
  have hmem := zeroPad_mem (0 + 1)
    (Nat.toDigits 10 (roundHalfEven (x.scaled (0 : Nat)).1 (x.scaled (0 : Nat)).2))
    (toDigits_mem _)
  unfold Format_f
  simp only
  generalize zeroPad (0 + 1)
    (Nat.toDigits 10 (roundHalfEven (x.scaled (0 : Nat)).1 (x.scaled (0 : Nat)).2)) = ds at hmem
  intro h
  simp only [if_true, List.append_nil, List.mem_append] at h
  rcases h with h | h
  · split_ifs at h
    · exact hminus (List.mem_singleton.mp h)
    · simp at h
  · exact hdig (hmem dec (List.mem_of_mem_take h))

/-- C13. For every string that holds no decimal separator, for every string whose
first character is the decimal separator, and for every retain value,
`RemoveTrailingZeroes` returns with the string exactly as it was; so
`ToString(value, 0, NoTrailingZeroes)` is the integer rendering of the value, no zero
stripped, whenever that rendering holds no decimal separator. -/
theorem RemoveTrailingZeroes_contract_violation (tr : List Char → List Char) (L : Separators)
    (s T : List Char) (retain : Nat) (x : FiniteDouble)
    (hs : L.decimalSep ∉ s) (hx : L.decimalSep ∉ Format_f L.decimalSep 0 x) :
    RemoveTrailingZeroes L s retain = some s ∧
      RemoveTrailingZeroes L (L.decimalSep :: T) retain = some (L.decimalSep :: T) ∧
      ToString_double tr L (Double.finite x) 0 Style_NoTrailingZeroes =
        some (Format_f L.decimalSep 0 x) := by
  refine ⟨RemoveTrailingZeroes_absent L s retain hs, RemoveTrailingZeroes_leading L T retain, ?_⟩
  rw [ToString_double_no tr L x 0 (le_refl 0)]
  exact RemoveTrailingZeroes_absent L _ 0 hx

/-- Witness of C13: `"1000"`, `".500"` and the value 1000 with precision 0. -/
theorem RemoveTrailingZeroes_contract_violation_witness :
    ('.' ∉ "1000".toList ∧ '.' ∉ Format_f '.' 0 ⟨false, 1000, 0⟩) ∧
    (RemoveTrailingZeroes ⟨'.', none⟩ "1000".toList 2 = some "1000".toList ∧
      RemoveTrailingZeroes ⟨'.', none⟩ ('.' :: "500".toList) 2 = some ('.' :: "500".toList) ∧
      ToString_double (fun l => l) ⟨'.', none⟩ (Double.finite ⟨false, 1000, 0⟩) 0
        Style_NoTrailingZeroes = some (Format_f '.' 0 ⟨false, 1000, 0⟩)) :=
  ⟨by decide,
    RemoveTrailingZeroes_contract_violation (fun l => l) ⟨'.', none⟩ "1000".toList "500".toList 2
      ⟨false, 1000, 0⟩ (by decide) (by decide)⟩

/-- C12 (the code does not do this). The value 1000000 with unspecified precision is
rendered `"1e+06"` by `%g`; `AddThousandsSeparators` takes the whole of it for an
integer and writes the separator after the `e`: `"1e,+06"`. -/
theorem AddThousandsSeparators_exponent_form :
    Format_g '.' ⟨false, 1000000, 0⟩ = "1e+06".toList ∧
      AddThousandsSeparators ⟨'.', some ','⟩ "1e+06".toList = some "1e,+06".toList ∧
      ToString_double (fun l => l) ⟨'.', some ','⟩ (Double.finite ⟨false, 1000000, 0⟩) (-1)
        Style_WithThousandsSep = some "1e,+06".toList := by
  decide

/-! ## Frame of grouping -/

theorem exists_last_nonzero (s : List Char) (h : ∃ c ∈ s, c ≠ '0') :
    ∃ (W : List Char) (x : Char) (z : Nat), s = W ++ x :: List.replicate z '0' ∧ x ≠ '0' := by
  obtain ⟨G, z, hs, hG⟩ := exists_trailing_zeros s
  rcases List.eq_nil_or_concat G with hnil | ⟨W, x, hx⟩
  · exfalso
    obtain ⟨c, hc, hc0⟩ := h
    rw [hs, hnil, List.nil_append] at hc
    exact hc0 (List.eq_of_mem_replicate hc)
  · refine ⟨W, x, z, ?_, ?_⟩
    · rw [hs, hx]
      simp
    · intro e
      apply hG
      rw [hx, e]
      simp

/-- `RemoveTrailingZeroes` on any string whose first decimal separator sits at
position `I.length ≥ 1` and whose last character other than `0` sits at position
`W.length`. -/
theorem RemoveTrailingZeroes_general (L : Separators) (s I T W : List Char) (x : Char)
    (z N : Nat) (hs1 : s = I ++ L.decimalSep :: T) (hId : L.decimalSep ∉ I) (hI : I ≠ [])
    (hs2 : s = W ++ x :: List.replicate z '0') (hx : x ≠ '0') (hN : N ≤ 3)
    (hlen : s.length + 4 < SIZE_MOD) :
    RemoveTrailingZeroes L s N =
      if W.length = I.length ∧ N = 0 then some (s.take I.length)
      else if I.length ≤ W.length ∧ W.length - I.length < N then
        wxString.erase s (N + I.length + 1)
      else some (s.take (W.length + 1)) := by
  have hfind : wxString.find s L.decimalSep = I.length := by
    rw [hs1]
    exact wxString.find_append_cons L.decimalSep I T hId
  have hlast : wxString.find_last_not_of s ['0'] = W.length := by
    rw [hs2]
    exact wxString.find_last_not_of_zero W x z hx
  have hIpos : 0 < I.length := List.length_pos.mpr hI
  have hIlt : I.length < s.length := by
    rw [hs1]
    simp
  have hWlt : W.length < s.length := by
    rw [hs2]
    simp
  rw [SIZE_MOD_eq] at hlen
  unfold RemoveTrailingZeroes
  simp only [hfind, hlast, npos_eq, SIZE_MOD_eq]
  rw [if_neg (show ¬ I.length = 18446744073709551615 by omega),
    if_neg (show ¬ I.length = 0 by omega)]
  by_cases h1 : W.length = I.length ∧ N = 0
  · rw [if_pos h1, if_pos h1]
    have e : ((W.length + 18446744073709551616 - 1) % 18446744073709551616 + 1) %
        18446744073709551616 = I.length := by omega
    rw [e]
    unfold wxString.erase
    rw [if_pos (by omega)]
  · rw [if_neg h1, if_neg h1]
    by_cases h2 : I.length ≤ W.length ∧ W.length - I.length < N
    · have hc : (W.length + 18446744073709551616 - I.length) % 18446744073709551616 < N := by
        omega
      rw [if_pos hc, if_pos h2]
      have e : ((N + I.length) % 18446744073709551616 + 1) % 18446744073709551616 =
          N + I.length + 1 := by omega
      rw [e]
    · have hc : ¬ (W.length + 18446744073709551616 - I.length) % 18446744073709551616 < N := by
        omega
      rw [if_neg hc, if_neg h2]
      have e : (W.length + 1) % 18446744073709551616 = W.length + 1 := by omega
      rw [e]
      unfold wxString.erase
      rw [if_pos (by omega)]

theorem erase_none (s : List Char) (k : Nat) (u : List Char) (hk : s.length < k)
    (h : wxString.erase s k = some u) : False := by
  unfold wxString.erase at h
  rw [if_neg (by omega)] at h
  cases h

/-- Once `RemoveTrailingZeroes(s, m)` has returned, a call with a higher retain `n`
either leaves the string as it is or asks `erase` for a position past the end. -/
theorem RemoveTrailingZeroes_stable (L : Separators) (s t u : List Char) (m n : Nat)
    (hmn : m < n) (hn : n ≤ 3) (hlen : s.length + 4 < SIZE_MOD)
    (ht : RemoveTrailingZeroes L s m = some t) (hu : RemoveTrailingZeroes L t n = some u) :
    u = t := by
  by_cases hmem : L.decimalSep ∈ s
  swap
  · rw [RemoveTrailingZeroes_absent L s m hmem] at ht
    cases ht
    rw [RemoveTrailingZeroes_absent L s n hmem] at hu
    cases hu
    rfl
  obtain ⟨I, T, hs1, hId⟩ := exists_first_occurrence L.decimalSep s hmem
  by_cases hI : I = []
  · subst hI
    rw [List.nil_append] at hs1
    subst hs1
    rw [RemoveTrailingZeroes_leading L T m] at ht
    cases ht
    rw [RemoveTrailingZeroes_leading L T n] at hu
    cases hu
    rfl
  have hnz : ∃ c ∈ s, c ≠ '0' := by
    by_cases hd : L.decimalSep = '0'
    · obtain ⟨a, l, hal⟩ := List.exists_cons_of_ne_nil hI
      refine ⟨a, by rw [hs1, hal]; simp, ?_⟩
      intro e
      apply hId
      rw [hal, hd, ← e]
      simp
    · exact ⟨L.decimalSep, hmem, hd⟩
  obtain ⟨W, x, z, hs2, hx⟩ := exists_last_nonzero s hnz
  have hIlt : I.length < s.length := by
    rw [hs1]
    simp
  have hWlt : W.length < s.length := by
    rw [hs2]
    simp
  have hsl1 : s.length = I.length + T.length + 1 := by
    rw [hs1]
    simp only [List.length_append, List.length_cons]
    omega
  have hsl2 : s.length = W.length + z + 1 := by
    rw [hs2]
    simp only [List.length_append, List.length_cons, List.length_replicate]
    omega
  have hM := hlen
  rw [SIZE_MOD_eq] at hM
  rw [RemoveTrailingZeroes_general L s I T W x z m hs1 hId hI hs2 hx (by omega) hlen] at ht
  by_cases h1 : W.length = I.length ∧ m = 0
  · -- the separator is dropped
    rw [if_pos h1] at ht
    cases ht
    have e : s.take I.length = I := by
      rw [hs1, List.take_left]
    rw [e] at hu ⊢
    rw [RemoveTrailingZeroes_absent L I n hId] at hu
    cases hu
    rfl
  rw [if_neg h1] at ht
  by_cases h2 : I.length ≤ W.length ∧ W.length - I.length < m
  · -- the cut point is moved to `m` characters after the separator
    rw [if_pos h2] at ht
    unfold wxString.erase at ht
    by_cases hr : m + I.length + 1 ≤ s.length
    · rw [if_pos hr] at ht
      cases ht
      have et1 : s.take (m + I.length + 1) = I ++ L.decimalSep :: T.take m := by
        rw [hs1, show m + I.length + 1 = I.length + m + 1 by omega, take_sep]
      have et2 : s.take (m + I.length + 1) =
          W ++ x :: List.replicate (min (m + I.length - W.length) z) '0' := by
        rw [hs2, show m + I.length + 1 = W.length + (m + I.length - W.length) + 1 by omega,
          take_sep, List.take_replicate]
      have etl : (s.take (m + I.length + 1)).length = m + I.length + 1 := by
        rw [List.length_take]
        omega
      rw [RemoveTrailingZeroes_general L _ I (T.take m) W x _ n et1 hId hI et2 hx hn
        (by rw [etl, SIZE_MOD_eq]; omega), if_neg (by omega), if_pos (by omega)] at hu
      exact (erase_none _ _ u (by rw [etl]; omega) hu).elim
    · rw [if_neg hr] at ht
      cases ht
  rw [if_neg h2] at ht
  cases ht
  by_cases h3 : W.length < I.length
  · -- the cut point lies before the separator
    have e : s.take (W.length + 1) = I.take (W.length + 1) := by
      rw [hs1, List.take_append_of_le_length (by omega)]
    have hnot : L.decimalSep ∉ s.take (W.length + 1) := by
      rw [e]
      exact fun hh => hId (List.mem_of_mem_take hh)
    rw [RemoveTrailingZeroes_absent L _ n hnot] at hu
    cases hu
    rfl
  · have et1 : s.take (W.length + 1) = I ++ L.decimalSep :: T.take (W.length - I.length) := by
      rw [hs1, show W.length + 1 = I.length + (W.length - I.length) + 1 by omega, take_sep]
    have et2 : s.take (W.length + 1) = W ++ x :: List.replicate 0 '0' := by
      rw [hs2]
      simpa using take_sep W (List.replicate z '0') x 0
    have etl : (s.take (W.length + 1)).length = W.length + 1 := by
      rw [List.length_take]
      omega
    rw [RemoveTrailingZeroes_general L _ I (T.take (W.length - I.length)) W x 0 n et1 hId hI
      et2 hx hn (by rw [etl, SIZE_MOD_eq]; omega), if_neg (by omega)] at hu
    by_cases h4 : I.length ≤ W.length ∧ W.length - I.length < n
    · rw [if_pos h4] at hu
      exact (erase_none _ _ u (by rw [etl]; omega) hu).elim
    · rw [if_neg h4] at hu
      cases hu
      rw [List.take_take, Nat.min_self]

theorem trimIf_stable (L : Separators) (s t r : List Char) (m n style flag : Nat)
    (hmn : m < n) (hn : n ≤ 3) (hlen : s.length + 4 < SIZE_MOD)
    (ht : RemoveTrailingZeroes L s m = some t) (h : trimIf L style flag n t = some r) :
    r = t := by
  unfold trimIf at h
  split_ifs at h
  · exact RemoveTrailingZeroes_stable L s t r m n hmn hn hlen ht h
  · cases h
    rfl

theorem trim_tail2 (L : Separators) (s t r : List Char) (m style : Nat) (hm : m < 2)
    (hlen : s.length + 4 < SIZE_MOD) (ht : RemoveTrailingZeroes L s m = some t)
    (h : ((trimIf L style Style_TwoTrailingZeroes 2 t).bind fun s4 =>
      trimIf L style Style_ThreeTrailingZeroes 3 s4) = some r) : r = t := by
  obtain ⟨s4, h4, h5⟩ := Option.bind_eq_some.mp h
  have e4 := trimIf_stable L s t s4 m 2 style _ hm (by omega) hlen ht h4
  subst e4
  exact trimIf_stable L s s4 r m 3 style _ (by omega) (by omega) hlen ht h5

theorem trim_tail1 (L : Separators) (s t r : List Char) (m style : Nat) (hm : m < 1)
    (hlen : s.length + 4 < SIZE_MOD) (ht : RemoveTrailingZeroes L s m = some t)
    (h : ((trimIf L style Style_OneTrailingZero 1 t).bind fun s3 =>
      (trimIf L style Style_TwoTrailingZeroes 2 s3).bind fun s4 =>
      trimIf L style Style_ThreeTrailingZeroes 3 s4) = some r) : r = t := by
  obtain ⟨s3, h3, h4⟩ := Option.bind_eq_some.mp h
  have e3 := trimIf_stable L s t s3 m 1 style _ hm (by omega) hlen ht h3
  subst e3
  exact trim_tail2 L s s3 r m style (by omega) hlen ht h4

/-- The four trimming steps of `ToString(double, int, int)` applied to `s1`: when
they return a string, it is the one the lowest-retention flag alone gives. -/
theorem trim_steps_lowest (L : Separators) (style low : Nat) (s1 r : List Char)
    (hlen : s1.length + 4 < SIZE_MOD)
    (h0 : hasFlag low Style_NoTrailingZeroes = hasFlag style Style_NoTrailingZeroes)
    (h1 : hasFlag low Style_OneTrailingZero =
      (hasFlag style Style_OneTrailingZero && !hasFlag style Style_NoTrailingZeroes))
    (h2 : hasFlag low Style_TwoTrailingZeroes =
      (hasFlag style Style_TwoTrailingZeroes && !hasFlag style Style_NoTrailingZeroes &&
        !hasFlag style Style_OneTrailingZero))
    (h3 : hasFlag low Style_ThreeTrailingZeroes =
      (hasFlag style Style_ThreeTrailingZeroes && !hasFlag style Style_NoTrailingZeroes &&
        !hasFlag style Style_OneTrailingZero && !hasFlag style Style_TwoTrailingZeroes))
    (h : ((trimIf L style Style_NoTrailingZeroes 0 s1).bind fun s2 =>
      (trimIf L style Style_OneTrailingZero 1 s2).bind fun s3 =>
      (trimIf L style Style_TwoTrailingZeroes 2 s3).bind fun s4 =>
      trimIf L style Style_ThreeTrailingZeroes 3 s4) = some r) :
    ((trimIf L low Style_NoTrailingZeroes 0 s1).bind fun s2 =>
      (trimIf L low Style_OneTrailingZero 1 s2).bind fun s3 =>
      (trimIf L low Style_TwoTrailingZeroes 2 s3).bind fun s4 =>
      trimIf L low Style_ThreeTrailingZeroes 3 s4) = some r := by
  by_cases b0 : hasFlag style Style_NoTrailingZeroes = true
  · rw [b0] at h0 h1 h2 h3
    simp only [Bool.not_true, Bool.and_false, Bool.false_and] at h1 h2 h3
    obtain ⟨t, ht, h'⟩ := Option.bind_eq_some.mp h
    have ht' : RemoveTrailingZeroes L s1 0 = some t := by
      simpa [trimIf, b0] using ht
    have e := trim_tail1 L s1 t r 0 style (by omega) hlen ht' h'
    subst e
    simp [trimIf, h0, h1, h2, h3, ht']
  have b0' : hasFlag style Style_NoTrailingZeroes = false := by simpa using b0
  rw [b0'] at h0 h1 h2 h3
  simp only [Bool.not_false, Bool.and_true] at h1 h2 h3
  have hs2 : trimIf L style Style_NoTrailingZeroes 0 s1 = some s1 := by simp [trimIf, b0']
  rw [hs2, Option.some_bind] at h
  by_cases b1 : hasFlag style Style_OneTrailingZero = true
  · rw [b1] at h1 h2 h3
    simp only [Bool.not_true, Bool.and_false, Bool.false_and] at h2 h3
    obtain ⟨t, ht, h'⟩ := Option.bind_eq_some.mp h
    have ht' : RemoveTrailingZeroes L s1 1 = some t := by
      simpa [trimIf, b1] using ht
    have e := trim_tail2 L s1 t r 1 style (by omega) hlen ht' h'
    subst e
    simp [trimIf, h0, h1, h2, h3, ht']
  have b1' : hasFlag style Style_OneTrailingZero = false := by simpa using b1
  rw [b1'] at h1 h2 h3
  simp only [Bool.not_false, Bool.and_true] at h2 h3
  have hs3 : trimIf L style Style_OneTrailingZero 1 s1 = some s1 := by simp [trimIf, b1']
  rw [hs3, Option.some_bind] at h
  by_cases b2 : hasFlag style Style_TwoTrailingZeroes = true
  · rw [b2] at h2 h3
    simp only [Bool.not_true, Bool.and_false] at h3
    obtain ⟨t, ht, h'⟩ := Option.bind_eq_some.mp h
    have ht' : RemoveTrailingZeroes L s1 2 = some t := by
      simpa [trimIf, b2] using ht
    have e := trimIf_stable L s1 t r 2 3 style _ (by omega) (by omega) hlen ht' h'
    subst e
    simp [trimIf, h0, h1, h2, h3, ht']
  have b2' : hasFlag style Style_TwoTrailingZeroes = false := by simpa using b2
  rw [b2'] at h2 h3
  simp only [Bool.not_false, Bool.and_true] at h3
  have hs4 : trimIf L style Style_TwoTrailingZeroes 2 s1 = some s1 := by simp [trimIf, b2']
  rw [hs4, Option.some_bind] at h
  simp only [trimIf, h0, h1, h2, h3, Bool.false_eq_true, if_false, Option.some_bind]
  simpa [trimIf] using h

theorem insert_length (s s1 : List Char) (p : Nat) (c : Char)
    (h : wxString.insert s p c = some s1) : s1.length = s.length + 1 := by
  unfold wxString.insert at h
  split_ifs at h with hle
  cases h
  simp only [List.length_append, List.length_take, List.length_cons, List.length_drop]
  omega

theorem loop_length (c : Char) (limit : Nat) :
    ∀ (fuel pos : Nat) (s r : List Char),
      AddThousandsSeparators.loop c limit fuel pos s = some r → r.length ≤ s.length + fuel := by
  intro fuel
  induction fuel with
  | zero =>
    intro pos s r h
    rw [AddThousandsSeparators.loop] at h
    by_cases hgt : pos > limit
    · rw [if_pos hgt] at h
      cases h
    · rw [if_neg hgt] at h
      cases h
      omega
  | succ fuel ih =>
    intro pos s r h
    rw [AddThousandsSeparators.loop] at h
    generalize (pos + SIZE_MOD - GROUP_LEN) % SIZE_MOD = pos1 at h
    by_cases hgt : pos > limit
    · rw [if_pos hgt] at h
      obtain ⟨s1, hs1, hr⟩ := Option.bind_eq_some.mp h
      have hl := insert_length s s1 pos1 c hs1
      have := ih _ s1 r hr
      omega
    · rw [if_neg hgt] at h
      cases h
      omega

theorem AddThousandsSeparators_length (L : Separators) (s r : List Char)
    (h : AddThousandsSeparators L s = some r) : r.length ≤ 2 * s.length := by
  unfold AddThousandsSeparators at h
  cases hL : L.thousandsSep with
  | none =>
    rw [hL] at h
    cases h
    omega
  | some c =>
    rw [hL] at h
    have := loop_length c _ _ _ s r h
    omega

/-- `ToString(double, int, int)` of a finite value with a specified precision:
fixed-point rendering, grouping when asked for, then the four trimming steps. -/
theorem ToString_double_fixed (tr : List Char → List Char) (L : Separators) (x : FiniteDouble)
    (precision : Int) (style : Nat) (hp : 0 ≤ precision) :
    ToString_double tr L (Double.finite x) precision style =
      (if hasFlag style Style_WithThousandsSep then
          AddThousandsSeparators L (Format_f L.decimalSep precision.toNat x)
        else some (Format_f L.decimalSep precision.toNat x)).bind fun s1 =>
      (trimIf L style Style_NoTrailingZeroes 0 s1).bind fun s2 =>
      (trimIf L style Style_OneTrailingZero 1 s2).bind fun s3 =>
      (trimIf L style Style_TwoTrailingZeroes 2 s3).bind fun s4 =>
      trimIf L style Style_ThreeTrailingZeroes 3 s4 := by
  have h1 : precision ≠ -1 := by omega
  unfold ToString_double Format
  simp only [h1, hp, if_true, if_false, Option.some_bind, ne_eq, not_false_eq_true]

/-- C11 as amended. For every finite `double`, every specified precision and every
style, let `low` be the style that keeps the `WithThousandsSep` bit of `style` and, of
its trailing-zero flags, only the lowest-retention one. Whenever
`ToString(value, precision, style)` returns a string, `ToString(value, precision,
low)` returns the same string: the trims run in the order 0, 1, 2, 3, the first one
applied wins, and a later one finds nothing to remove and never pads. -/
theorem ToString_double_lowest_flag (tr : List Char → List Char) (L : Separators)
    (x : FiniteDouble) (precision : Int) (style low : Nat) (r : List Char)
    (hmant : x.mant < 2 ^ 53) (hexp : x.exp ≤ 971)
    (hp0 : 0 ≤ precision) (hp31 : precision < 2 ^ 31)
    (hW : hasFlag low Style_WithThousandsSep = hasFlag style Style_WithThousandsSep)
    (h0 : hasFlag low Style_NoTrailingZeroes = hasFlag style Style_NoTrailingZeroes)
    (h1 : hasFlag low Style_OneTrailingZero =
      (hasFlag style Style_OneTrailingZero && !hasFlag style Style_NoTrailingZeroes))
    (h2 : hasFlag low Style_TwoTrailingZeroes =
      (hasFlag style Style_TwoTrailingZeroes && !hasFlag style Style_NoTrailingZeroes &&
        !hasFlag style Style_OneTrailingZero))
    (h3 : hasFlag low Style_ThreeTrailingZeroes =
      (hasFlag style Style_ThreeTrailingZeroes && !hasFlag style Style_NoTrailingZeroes &&
        !hasFlag style Style_OneTrailingZero && !hasFlag style Style_TwoTrailingZeroes))
    (h : ToString_double tr L (Double.finite x) precision style = some r) :
    ToString_double tr L (Double.finite x) precision low = some r := by
  rw [ToString_double_fixed tr L x precision _ hp0] at h ⊢
  rw [hW]
  obtain ⟨s1, hs1, hchain⟩ := Option.bind_eq_some.mp h
  have hF := Format_f_length L.decimalSep precision.toNat x hmant hexp
  have hlen : s1.length + 4 < SIZE_MOD := by
    rw [SIZE_MOD_eq]
    split_ifs at hs1
    · have := AddThousandsSeparators_length L _ s1 hs1
      omega
    · cases hs1
      omega
  exact Option.bind_eq_some.mpr
    ⟨s1, hs1, trim_steps_lowest L style low s1 r hlen h0 h1 h2 h3 hchain⟩

/-- Witness of C11 as amended: the value 1 with precision 2 and the flags
`NoTrailingZeroes` and `TwoTrailingZeroes` gives `"1"`, as `NoTrailingZeroes` alone. -/
theorem ToString_double_lowest_flag_witness :
    ((1 : Nat) < 2 ^ 53 ∧ (0 : Int) ≤ 971 ∧ (0 : Int) ≤ 2 ∧ (2 : Int) < 2 ^ 31 ∧
      hasFlag Style_NoTrailingZeroes Style_WithThousandsSep =
        hasFlag (Style_NoTrailingZeroes ||| Style_TwoTrailingZeroes) Style_WithThousandsSep ∧
      hasFlag Style_NoTrailingZeroes Style_NoTrailingZeroes =
        hasFlag (Style_NoTrailingZeroes ||| Style_TwoTrailingZeroes) Style_NoTrailingZeroes ∧
      hasFlag Style_NoTrailingZeroes Style_OneTrailingZero =
        (hasFlag (Style_NoTrailingZeroes ||| Style_TwoTrailingZeroes) Style_OneTrailingZero &&
          !hasFlag (Style_NoTrailingZeroes ||| Style_TwoTrailingZeroes) Style_NoTrailingZeroes) ∧
      hasFlag Style_NoTrailingZeroes Style_TwoTrailingZeroes =
        (hasFlag (Style_NoTrailingZeroes ||| Style_TwoTrailingZeroes) Style_TwoTrailingZeroes &&
          !hasFlag (Style_NoTrailingZeroes ||| Style_TwoTrailingZeroes) Style_NoTrailingZeroes &&
          !hasFlag (Style_NoTrailingZeroes ||| Style_TwoTrailingZeroes) Style_OneTrailingZero) ∧
      hasFlag Style_NoTrailingZeroes Style_ThreeTrailingZeroes =
        (hasFlag (Style_NoTrailingZeroes ||| Style_TwoTrailingZeroes)
            Style_ThreeTrailingZeroes &&
          !hasFlag (Style_NoTrailingZeroes ||| Style_TwoTrailingZeroes) Style_NoTrailingZeroes &&
          !hasFlag (Style_NoTrailingZeroes ||| Style_TwoTrailingZeroes) Style_OneTrailingZero &&
          !hasFlag (Style_NoTrailingZeroes ||| Style_TwoTrailingZeroes)
            Style_TwoTrailingZeroes) ∧
      ToString_double (fun l => l) ⟨'.', none⟩ (Double.finite ⟨false, 1, 0⟩) 2
        (Style_NoTrailingZeroes ||| Style_TwoTrailingZeroes) = some "1".toList) ∧
    ToString_double (fun l => l) ⟨'.', none⟩ (Double.finite ⟨false, 1, 0⟩) 2
      Style_NoTrailingZeroes = some "1".toList :=
  ⟨by decide,
    ToString_double_lowest_flag (fun l => l) ⟨'.', none⟩ ⟨false, 1, 0⟩ 2
      (Style_NoTrailingZeroes ||| Style_TwoTrailingZeroes) Style_NoTrailingZeroes "1".toList
      (by decide) (by decide) (by decide) (by decide) (by decide) (by decide) (by decide)
      (by decide) (by decide) (by decide)⟩

/-- C11 as stated fails. The value 1 with precision 2 gives `"1"` under
`NoTrailingZeroes` with `TwoTrailingZeroes` and `"1.00"` under `TwoTrailingZeroes`
alone; the value 1.5 with precision 4 under `OneTrailingZero` with `TwoTrailingZeroes`
is first cut to `"1.5"`, then `erase` is asked for a position past the end, while
`TwoTrailingZeroes` alone gives `"1.50"`. -/
theorem ToString_double_highest_flag_loses :
    ToString_double (fun l => l) ⟨'.', none⟩ (Double.finite ⟨false, 1, 0⟩) 2
        (Style_NoTrailingZeroes ||| Style_TwoTrailingZeroes) = some "1".toList ∧
      ToString_double (fun l => l) ⟨'.', none⟩ (Double.finite ⟨false, 1, 0⟩) 2
        Style_TwoTrailingZeroes = some "1.00".toList ∧
      ToString_double (fun l => l) ⟨'.', none⟩ (Double.finite ⟨false, 3, -1⟩) 4
        (Style_OneTrailingZero ||| Style_TwoTrailingZeroes) = none ∧
      ToString_double (fun l => l) ⟨'.', none⟩ (Double.finite ⟨false, 3, -1⟩) 4
        Style_TwoTrailingZeroes = some "1.50".toList := by
  decide

end NumberFormatter
